import Mathlib

/-
Verification of the saddle-point solver in dspp/problem.py:
the expression-tree variable-fixing transform (fix_vars_in_expr),
the constraint partitioner (_split_constraints), and the alternating
Douglas-Rachford-style solver (_solve_DR) with its initialization and
final saddle-point validation.

The external numerical solver (cvxpy's Problem.solve) is treated as an
opaque oracle: a function from a call index and a constructed sub-problem
to an optional result (None models a non-optimal status, which the code
turns into an AssertionError).  Numeric array values are modelled as
flattened lists of rationals.
-/

namespace DSPP

/-- Flattened numeric value of a variable, parameter or constant
(a numpy array, flattened to a vector of rationals). -/
abbrev Val := List ℚ

/-- A cvxpy Variable declaration: identity, shape and attribute flags.
The mutable numeric value lives in the solver state, not here. -/
structure VarDecl where
  vid : Nat
  shape : List Nat
  attrs : List (String × Bool)
deriving DecidableEq, Repr

/-- A cvxpy constraint, abstracted to an identity and the list of
variables (ids) that `c.variables()` reports. -/
structure Constr where
  cid : Nat
  cvars : List Nat
deriving DecidableEq, Repr

/-- cvxpy expression trees as used by problem.py: leaf variables,
numeric constants, parameters, and atom applications with children. -/
inductive Expr where
| var (id : Nat) (shape : List Nat) (attrs : List (String × Bool))
| const (v : Option Val)
| param (shape : List Nat) (value : Option Val) (attrs : List (String × Bool))
| node (kind : String) (args : List Expr)

/-- Well-typed ids of a list of variable declarations. -/
def idsOf (vs : List VarDecl) : List Nat := vs.map VarDecl.vid

mutual

/-- Embeds SaddlePointProblem.fix_vars_in_expr (problem.py 209-222).
A leaf Variable in the fixed set becomes a Parameter of identical shape
carrying the variable's current value (read from the assignment σ, which
stands for the mutable `.value` slots) and its attributes; other leaves
pass through; an inner node is rebuilt over its fixed children. -/
def fix_vars_in_expr (σ : Nat → Option Val) : Expr → List Nat → Expr
| Expr.var id s a, vs => if id ∈ vs then Expr.param s (σ id) a else Expr.var id s a
| Expr.const v, _ => Expr.const v
| Expr.param s v a, _ => Expr.param s v a
| Expr.node k args, vs => Expr.node k (fixArgs σ args vs)

/-- The recursive fixing of the list of children (the list comprehension
on problem.py line 220-221). -/
def fixArgs (σ : Nat → Option Val) : List Expr → List Nat → List Expr
| [], _ => []
| e :: es, vs => fix_vars_in_expr σ e vs :: fixArgs σ es vs

end

mutual

/-- The variable ids referenced by an expression tree
(cvxpy's Expression.variables, up to multiplicity and order). -/
def varsOf : Expr → List Nat
| Expr.var id _ _ => [id]
| Expr.const _ => []
| Expr.param _ _ _ => []
| Expr.node _ args => varsOfList args

/-- Variable ids referenced by a list of children. -/
def varsOfList : List Expr → List Nat
| [] => []
| e :: es => varsOf e ++ varsOfList es

end

mutual

/-- Evaluation of an expression tree under an interpretation of the atom
kinds and an assignment of values to variables.  Unvalued constants,
parameters and variables make the evaluation undefined. -/
def evalExpr (interp : String → List Val → Option Val) (asg : Nat → Option Val) :
    Expr → Option Val
| Expr.var id _ _ => asg id
| Expr.const v => v
| Expr.param _ v _ => v
| Expr.node k args =>
  match evalArgs interp asg args with
  | none => none
  | some vs => interp k vs

/-- Evaluation of a list of children, undefined if any child is. -/
def evalArgs (interp : String → List Val → Option Val) (asg : Nat → Option Val) :
    List Expr → Option (List Val)
| [] => some []
| e :: es =>
  match evalExpr interp asg e, evalArgs interp asg es with
  | some v, some vs => some (v :: vs)
  | _, _ => none

end

/-! ### Object-heap model of fix_vars_in_expr

Python expression nodes are heap objects; `expr.copy()` on an inner node
allocates a fresh node and the recursion rebuilds the tree bottom-up
without ever writing to an existing node, while on a cvxpy Leaf it
returns the object itself.  To make this frame property statable we
re-embed fix_vars_in_expr over an explicit heap: a node is stored at an
address (its list index) and an inner node holds the addresses of its
children.  Allocation appends at the end of the heap. -/

/-- A heap-resident expression node; children of `hnode` are heap addresses. -/
inductive HNode where
| hvar (id : Nat) (shape : List Nat) (attrs : List (String × Bool))
| hconst (v : Option Val)
| hparam (shape : List Nat) (value : Option Val) (attrs : List (String × Bool))
| hnode (kind : String) (args : List Nat)
deriving DecidableEq, Repr

/-- The object heap: address a holds node `h[a]?`. -/
abbrev Heap := List HNode

mutual

/-- Heap-level embedding of fix_vars_in_expr (problem.py 209-222).
`expr.copy()` on a cvxpy Leaf (Variable, Constant, Parameter) returns the
object itself - leaves are not deep copied - so an untouched leaf is
returned at its original address unchanged (aliased into the result); this is
what lets the proximal terms and the solver act on the original free
variable objects.  A leaf Variable in the fixed set becomes a freshly
allocated Parameter, and an inner node is rebuilt as a fresh node over
the fixed children.  The fuel bounds the recursion depth; `none` covers
fuel exhaustion and dangling addresses, which cannot occur for a
well-formed tree with enough fuel. -/
def fixH (σ : Nat → Option Val) : Nat → Heap → Nat → List Nat → Option (Heap × Nat)
| 0, _, _, _ => none
| fuel + 1, h, addr, vs =>
  match h[addr]? with
  | none => none
  | some (HNode.hvar id s a) =>
    if id ∈ vs then some (h ++ [HNode.hparam s (σ id) a], h.length)
    else some (h, addr)
  | some (HNode.hconst _) => some (h, addr)
  | some (HNode.hparam _ _ _) => some (h, addr)
  | some (HNode.hnode k args) =>
    match fixHArgs σ fuel h args vs with
    | none => none
    | some (h1, args1) => some (h1 ++ [HNode.hnode k args1], h1.length)
termination_by fuel _h _addr _vs => (fuel, 0)

/-- Fixing of a list of children addresses, left to right, threading the
growing heap. -/
def fixHArgs (σ : Nat → Option Val) : Nat → Heap → List Nat → List Nat →
    Option (Heap × List Nat)
| _, h, [], _ => some (h, [])
| fuel, h, a :: as, vs =>
  match fixH σ fuel h a vs with
  | none => none
  | some (h1, a1) =>
    match fixHArgs σ fuel h1 as vs with
    | none => none
    | some (h2, as2) => some (h2, a1 :: as2)
termination_by fuel _h as _vs => (fuel, as.length + 1)

end

mutual

/-- Evaluation of a heap-resident expression tree (same semantics as
evalExpr, reading nodes through the heap). -/
def evalH (interp : String → List Val → Option Val) (asg : Nat → Option Val) :
    Nat → Heap → Nat → Option Val
| 0, _, _ => none
| fuel + 1, h, addr =>
  match h[addr]? with
  | none => none
  | some (HNode.hvar id _ _) => asg id
  | some (HNode.hconst v) => v
  | some (HNode.hparam _ v _) => v
  | some (HNode.hnode k args) =>
    match evalHArgs interp asg fuel h args with
    | none => none
    | some vs => interp k vs
termination_by fuel _h _addr => (fuel, 0)

/-- Evaluation of a list of children addresses. -/
def evalHArgs (interp : String → List Val → Option Val) (asg : Nat → Option Val) :
    Nat → Heap → List Nat → Option (List Val)
| _, _, [] => some []
| fuel, h, a :: as =>
  match evalH interp asg fuel h a, evalHArgs interp asg fuel h as with
  | some v, some vs => some (v :: vs)
  | _, _ => none
termination_by fuel _h as => (fuel, as.length + 1)

end

/-! ### Constraint partitioning (SaddleProblem._split_constraints) -/

/-- Whether `set(c.variables()) & ids` is non-empty. -/
def touches (c : Constr) (ids : List Nat) : Bool := c.cvars.any (fun i => i ∈ ids)

/-- One pass of the classification loop over the snapshot `list(constraints)`
(problem.py 130-139): a constraint meeting the x side is appended there
after asserting it does not also meet the y side (AssertionError modelled
as none), symmetrically for y, and a constraint meeting neither stays in
the remainder.  Returns (x-assigned, y-assigned, remainder) in input order. -/
def classifyPass (xv yv : List Nat) : List Constr →
    Option (List Constr × List Constr × List Constr)
| [] => some ([], [], [])
| c :: cs =>
  if touches c xv then
    if touches c yv then none
    else
      match classifyPass xv yv cs with
      | none => none
      | some (xs, ys, rem) => some (c :: xs, ys, rem)
  else if touches c yv then
    if touches c xv then none
    else
      match classifyPass xv yv cs with
      | none => none
      | some (xs, ys, rem) => some (xs, c :: ys, rem)
  else
    match classifyPass xv yv cs with
    | none => none
    | some (xs, ys, rem) => some (xs, ys, c :: rem)

/-- The remainder of a pass never grows. -/
theorem classifyPass_rem_length_le (xv yv : List Nat) :
    ∀ cs xs ys rem, classifyPass xv yv cs = some (xs, ys, rem) →
    rem.length ≤ cs.length := by
  intro cs
  induction cs with
  | nil =>
    intro xs ys rem h
    simp only [classifyPass, Option.some.injEq, Prod.mk.injEq] at h
    obtain ⟨-, -, hr⟩ := h
    simp [← hr]
  | cons c cs ih =>
    intro xs ys rem h
    cases hrec : classifyPass xv yv cs with
    | none =>
      simp only [classifyPass, hrec] at h
      split at h <;> exact absurd h (by simp)
    | some t =>
      obtain ⟨xs1, ys1, rem1⟩ := t
      have h1 := ih xs1 ys1 rem1 hrec
      simp only [classifyPass, hrec] at h
      split at h
      · split at h
        · exact absurd h (by simp)
        · simp only [Option.some.injEq, Prod.mk.injEq] at h
          obtain ⟨-, -, hr⟩ := h
          rw [← hr]
          exact Nat.le_succ_of_le h1
      · split at h
        · simp only [Option.some.injEq, Prod.mk.injEq] at h
          obtain ⟨-, -, hr⟩ := h
          rw [← hr]
          exact Nat.le_succ_of_le h1
        · simp only [Option.some.injEq, Prod.mk.injEq] at h
          obtain ⟨-, -, hr⟩ := h
          rw [← hr]
          simpa using h1

/-- The while-loop of _split_constraints (problem.py 128-142): repeat the
classification pass; a pass that makes no progress on a non-empty list is
the ValueError of line 142. -/
def splitLoop (xv yv : List Nat) (cs : List Constr) :
    Option (List Constr × List Constr) :=
  if hcs : cs = [] then some ([], [])
  else
    match hp : classifyPass xv yv cs with
    | none => none
    | some (xs, ys, rem) =>
      if hlen : rem.length = cs.length then none
      else
        match splitLoop xv yv rem with
        | none => none
        | some (xs1, ys1) => some (xs ++ xs1, ys ++ ys1)
termination_by cs.length
decreasing_by
  exact Nat.lt_of_le_of_ne (classifyPass_rem_length_le xv yv cs xs ys rem hp) hlen

/-- Embeds SaddleProblem._split_constraints (problem.py 121-146), with the
two final asserts: the assigned constraints account for every input
constraint, and the two players' variable sets are disjoint. -/
def split_constraints (xv yv : List Nat) (cs : List Constr) :
    Option (List Constr × List Constr) :=
  match splitLoop xv yv cs with
  | none => none
  | some (xs, ys) =>
    if xs.length + ys.length = cs.length then
      if xv.any (fun i => i ∈ yv) then none else some (xs, ys)
    else none

/-- When every constraint meets exactly one side, a single pass assigns
everything, in input order, and leaves an empty remainder. -/
theorem classifyPass_exact (xv yv : List Nat) :
    ∀ cs, (∀ c ∈ cs, touches c xv ≠ touches c yv) →
    classifyPass xv yv cs =
      some (cs.filter (fun c => touches c xv), cs.filter (fun c => touches c yv), []) := by
  intro cs hx
  induction cs with
  | nil => simp [classifyPass]
  | cons c cs ih =>
    have hc := hx c (by simp)
    have hrest : ∀ c2 ∈ cs, touches c2 xv ≠ touches c2 yv :=
      fun c2 h2 => hx c2 (by simp [h2])
    by_cases h1 : touches c xv = true
    · have h2 : touches c yv = false := by
        cases h3 : touches c yv
        · rfl
        · rw [h1, h3] at hc
          exact absurd rfl hc
      simp [classifyPass, h1, h2, ih hrest]
    · have h1f : touches c xv = false := by simpa using h1
      have h2 : touches c yv = true := by
        cases h3 : touches c yv
        · rw [h1f, h3] at hc
          exact absurd rfl hc
        · rfl
      simp [classifyPass, h1f, h2, ih hrest]

/-- A constraint meeting both sides makes the pass fail (the assert on
problem.py line 133). -/
theorem classifyPass_mixed (xv yv : List Nat) :
    ∀ cs c, c ∈ cs → touches c xv = true → touches c yv = true →
    classifyPass xv yv cs = none := by
  intro cs
  induction cs with
  | nil => simp
  | cons c0 cs ih =>
    intro c hc h1 h2
    rcases List.mem_cons.mp hc with hc | hc
    · subst hc
      simp [classifyPass, h1, h2]
    · have hrec := ih c hc h1 h2
      simp [classifyPass, hrec]

/-- A constraint meeting neither side survives every pass. -/
theorem classifyPass_orphan_mem (xv yv : List Nat) :
    ∀ cs xs ys rem c, classifyPass xv yv cs = some (xs, ys, rem) →
    c ∈ cs → touches c xv = false → touches c yv = false → c ∈ rem := by
  intro cs
  induction cs with
  | nil => simp
  | cons c0 cs ih =>
    intro xs ys rem c h hc h1 h2
    rcases List.mem_cons.mp hc with hc | hc
    · subst hc
      simp only [classifyPass, h1, h2, Bool.false_eq_true, if_false] at h
      cases hrec : classifyPass xv yv cs with
      | none => rw [hrec] at h; exact absurd h (by simp)
      | some t =>
        obtain ⟨xs1, ys1, rem1⟩ := t
        rw [hrec] at h
        simp only [Option.some.injEq, Prod.mk.injEq] at h
        obtain ⟨-, -, hr⟩ := h
        rw [← hr]
        simp
    · simp only [classifyPass] at h
      split at h
      · split at h
        · exact absurd h (by simp)
        · cases hrec : classifyPass xv yv cs with
          | none => rw [hrec] at h; exact absurd h (by simp)
          | some t =>
            obtain ⟨xs1, ys1, rem1⟩ := t
            rw [hrec] at h
            simp only [Option.some.injEq, Prod.mk.injEq] at h
            obtain ⟨-, -, hr⟩ := h
            rw [← hr]
            exact ih xs1 ys1 rem1 c hrec hc h1 h2
      · split at h
        · cases hrec : classifyPass xv yv cs with
          | none => rw [hrec] at h; exact absurd h (by simp)
          | some t =>
            obtain ⟨xs1, ys1, rem1⟩ := t
            rw [hrec] at h
            simp only [Option.some.injEq, Prod.mk.injEq] at h
            obtain ⟨-, -, hr⟩ := h
            rw [← hr]
            exact ih xs1 ys1 rem1 c hrec hc h1 h2
        · cases hrec : classifyPass xv yv cs with
          | none => rw [hrec] at h; exact absurd h (by simp)
          | some t =>
            obtain ⟨xs1, ys1, rem1⟩ := t
            rw [hrec] at h
            simp only [Option.some.injEq, Prod.mk.injEq] at h
            obtain ⟨-, -, hr⟩ := h
            rw [← hr]
            exact List.mem_cons_of_mem c0 (ih xs1 ys1 rem1 c hrec hc h1 h2)

/-- A constraint meeting neither side eventually leaves the loop without
progress: the ValueError of line 142. -/
theorem splitLoop_orphan (xv yv : List Nat) :
    ∀ n cs c, cs.length ≤ n → c ∈ cs → touches c xv = false → touches c yv = false →
    splitLoop xv yv cs = none := by
  intro n
  induction n with
  | zero =>
    intro cs c hlen hc _ _
    have : cs = [] := List.eq_nil_of_length_eq_zero (Nat.le_zero.mp hlen)
    subst this
    exact absurd hc (by simp)
  | succ n ih =>
    intro cs c hlen hc h1 h2
    rw [splitLoop]
    have hne : ¬cs = [] := by
      intro hcon
      subst hcon
      exact absurd hc (by simp)
    simp only [hne, dif_neg, not_false_iff]
    cases hp : classifyPass xv yv cs with
    | none => rfl
    | some t =>
      obtain ⟨xs, ys, rem⟩ := t
      simp only
      by_cases hl : rem.length = cs.length
      · simp [hl]
      · simp only [hl, dif_neg, not_false_iff]
        have hmem : c ∈ rem := classifyPass_orphan_mem xv yv cs xs ys rem c hp hc h1 h2
        have hlt : rem.length < cs.length :=
          Nat.lt_of_le_of_ne (classifyPass_rem_length_le xv yv cs xs ys rem hp) hl
        have := ih rem c (by omega) hmem h1 h2
        rw [this]

/-- C5: for every input constraint list, a constraint meeting exactly one
player's variable set is assigned to that side (in input order), a
constraint meeting both sides or neither side makes the partitioning fail
before any solve, and on success the two output lengths sum to the input
length with no constraint assigned to both sides. -/
theorem split_constraints_correct (xv yv : List Nat) (cs : List Constr)
    (hdisj : ∀ i ∈ xv, i ∉ yv) :
    ((∀ c ∈ cs, touches c xv ≠ touches c yv) →
      split_constraints xv yv cs =
        some (cs.filter (fun c => touches c xv), cs.filter (fun c => touches c yv)) ∧
      (cs.filter (fun c => touches c xv)).length
        + (cs.filter (fun c => touches c yv)).length = cs.length ∧
      (∀ c ∈ cs.filter (fun c => touches c xv),
        c ∉ cs.filter (fun c => touches c yv)))
    ∧ ((∃ c ∈ cs, touches c xv = true ∧ touches c yv = true) →
        split_constraints xv yv cs = none)
    ∧ ((∃ c ∈ cs, touches c xv = false ∧ touches c yv = false) →
        split_constraints xv yv cs = none) := by
  have hxyv : xv.any (fun i => i ∈ yv) = false := by
    rw [List.any_eq_false]
    intro i hi
    simpa using hdisj i hi
  refine ⟨?_, ?_, ?_⟩
  · intro hone
    have hfy : cs.filter (fun c => touches c yv)
        = cs.filter (fun c => ! touches c xv) := by
      apply List.filter_congr
      intro c hc
      have := hone c hc
      cases h1 : touches c xv
      all_goals
        cases h2 : touches c yv
        all_goals
          rw [h1, h2] at this
          simp at this ⊢
    have hlen : (cs.filter (fun c => touches c xv)).length
        + (cs.filter (fun c => touches c yv)).length = cs.length := by
      rw [hfy]
      exact (List.length_eq_length_filter_add (fun c => touches c xv)).symm
    refine ⟨?_, hlen, ?_⟩
    · unfold split_constraints
      cases hcs : cs with
      | nil =>
        simp [splitLoop, hxyv]
      | cons c0 cs0 =>
        rw [← hcs]
        rw [splitLoop]
        have hne : ¬cs = [] := by simp [hcs]
        simp only [hne, dif_neg, not_false_iff]
        rw [classifyPass_exact xv yv cs hone]
        simp only
        have hlt : ¬([] : List Constr).length = cs.length := by simp [hcs]
        simp only [hlt, dif_neg, not_false_iff]
        rw [splitLoop]
        simp [hlen, hxyv]
    · intro c hcx hcy
      have h1 := List.of_mem_filter hcx
      have h2 := List.of_mem_filter hcy
      exact absurd (h1.trans h2.symm) (hone c (List.mem_of_mem_filter hcx))
  · rintro ⟨c, hc, h1, h2⟩
    unfold split_constraints
    rw [splitLoop]
    have hne : ¬cs = [] := by
      intro hcon
      subst hcon
      exact absurd hc (by simp)
    simp only [hne, dif_neg, not_false_iff]
    rw [classifyPass_mixed xv yv cs c hc h1 h2]
  · rintro ⟨c, hc, h1, h2⟩
    unfold split_constraints
    rw [splitLoop_orphan xv yv cs.length cs c (Nat.le_refl _) hc h1 h2]

/-- Witness for C5: two cleanly-owned constraints are split in order, a
coupling constraint fails, an orphan constraint fails. -/
theorem split_constraints_correct_witness :
    split_constraints [0] [1] [Constr.mk 10 [0], Constr.mk 11 [1]]
      = some ([Constr.mk 10 [0]], [Constr.mk 11 [1]])
    ∧ split_constraints [0] [1] [Constr.mk 12 [0, 1]] = none
    ∧ split_constraints [0] [1] [Constr.mk 13 [5]] = none := by
  have H := split_constraints_correct [0] [1]
  refine ⟨?_, ?_, ?_⟩
  · have h := ((H [Constr.mk 10 [0], Constr.mk 11 [1]] (by decide)).1 (by decide)).1
    rw [h]
    decide
  · exact (H [Constr.mk 12 [0, 1]] (by decide)).2.1 ⟨Constr.mk 12 [0, 1], by decide, by decide, by decide⟩
  · exact (H [Constr.mk 13 [5]] (by decide)).2.2 ⟨Constr.mk 13 [5], by decide, by decide, by decide⟩

/-! ### Properties of fix_vars_in_expr (tree level) -/

/-- fixArgs is the elementwise map of fix_vars_in_expr. -/
theorem fixArgs_eq_map (σ : Nat → Option Val) (vs : List Nat) :
    ∀ l, fixArgs σ l vs = l.map (fun e => fix_vars_in_expr σ e vs) := by
  intro l
  induction l with
  | nil => simp [fixArgs]
  | cons e es ih => simp [fixArgs, ih]

/-- Membership in the variables of a list of children. -/
theorem mem_varsOfList (i : Nat) :
    ∀ l, i ∈ varsOfList l ↔ ∃ e ∈ l, i ∈ varsOf e := by
  intro l
  induction l with
  | nil => simp [varsOfList]
  | cons e es ih =>
    simp only [varsOfList, List.mem_append, ih]
    constructor
    · rintro (h | ⟨e2, he2, hi⟩)
      · exact ⟨e, by simp, h⟩
      · exact ⟨e2, by simp [he2], hi⟩
    · rintro ⟨e2, he2, hi⟩
      rcases List.mem_cons.mp he2 with rfl | he2
      · exact Or.inl hi
      · exact Or.inr ⟨e2, he2, hi⟩

/-- Fixing a variable set removes every reference to it from the tree. -/
theorem fix_vars_in_expr_removes (σ : Nat → Option Val) (vs : List Nat) :
    ∀ n e, sizeOf e ≤ n → ∀ i ∈ varsOf (fix_vars_in_expr σ e vs), i ∉ vs := by
  intro n
  induction n with
  | zero =>
    intro e hsize
    cases e <;> simp at hsize <;> omega
  | succ n ih =>
    intro e hsize i hi
    cases e with
    | var id s a =>
      by_cases hid : id ∈ vs
      · simp [fix_vars_in_expr, hid, varsOf] at hi
      · simp [fix_vars_in_expr, hid, varsOf] at hi
        subst hi
        exact hid
    | const v => simp [fix_vars_in_expr, varsOf] at hi
    | param s v a => simp [fix_vars_in_expr, varsOf] at hi
    | node k args =>
      simp only [fix_vars_in_expr, varsOf, fixArgs_eq_map] at hi
      rw [mem_varsOfList] at hi
      obtain ⟨e2, he2, hi2⟩ := hi
      rw [List.mem_map] at he2
      obtain ⟨e0, he0, rfl⟩ := he2
      have hlt : sizeOf e0 < sizeOf (Expr.node k args) := by
        have h1 := List.sizeOf_lt_of_mem he0
        simp only [Expr.node.sizeOf_spec]
        omega
      exact ih e0 (by omega) i hi2

/-- C6: fix_vars_in_expr replaces exactly the leaf Variables of the given
set by Parameters of identical shape carrying the variable's current value
and attributes, passes every other leaf and every structural node through
(with already-fixed children), leaves no reference to any fixed variable in
the result, and fixing the empty set returns the tree unchanged, so its
evaluated value is unchanged for every interpretation and assignment. -/
theorem fix_vars_in_expr_correct (σ : Nat → Option Val) (vs : List Nat) :
    (∀ id s a, id ∈ vs →
      fix_vars_in_expr σ (Expr.var id s a) vs = Expr.param s (σ id) a)
    ∧ (∀ id s a, id ∉ vs →
      fix_vars_in_expr σ (Expr.var id s a) vs = Expr.var id s a)
    ∧ (∀ v, fix_vars_in_expr σ (Expr.const v) vs = Expr.const v)
    ∧ (∀ s v a, fix_vars_in_expr σ (Expr.param s v a) vs = Expr.param s v a)
    ∧ (∀ k args, fix_vars_in_expr σ (Expr.node k args) vs
        = Expr.node k (args.map (fun e => fix_vars_in_expr σ e vs)))
    ∧ (∀ e i, i ∈ varsOf (fix_vars_in_expr σ e vs) → i ∉ vs)
    ∧ (∀ e, fix_vars_in_expr σ e [] = e)
    ∧ (∀ e interp asg,
        evalExpr interp asg (fix_vars_in_expr σ e []) = evalExpr interp asg e) := by
  have hid : ∀ e, fix_vars_in_expr σ e [] = e := by
    have haux : ∀ n e, sizeOf e ≤ n → fix_vars_in_expr σ e [] = e := by
      intro n
      induction n with
      | zero =>
        intro e hsize
        cases e <;> simp at hsize <;> omega
      | succ n ih =>
        intro e hsize
        cases e with
        | var id s a => simp [fix_vars_in_expr]
        | const v => simp [fix_vars_in_expr]
        | param s v a => simp [fix_vars_in_expr]
        | node k args =>
          simp only [fix_vars_in_expr, fixArgs_eq_map, Expr.node.injEq, true_and]
          have : ∀ e0 ∈ args, fix_vars_in_expr σ e0 [] = e0 := by
            intro e0 he0
            have h1 := List.sizeOf_lt_of_mem he0
            have h2 : sizeOf (Expr.node k args) ≤ n + 1 := hsize
            simp only [Expr.node.sizeOf_spec] at h2
            exact ih e0 (by omega)
          calc args.map (fun e => fix_vars_in_expr σ e [])
              = args.map id := List.map_congr_left this
            _ = args := List.map_id args
    exact fun e => haux (sizeOf e) e (Nat.le_refl _)
  refine ⟨?_, ?_, ?_, ?_, ?_, ?_, hid, ?_⟩
  · intro id s a h
    simp [fix_vars_in_expr, h]
  · intro id s a h
    simp [fix_vars_in_expr, h]
  · intro v
    simp [fix_vars_in_expr]
  · intro s v a
    simp [fix_vars_in_expr]
  · intro k args
    simp [fix_vars_in_expr, fixArgs_eq_map]
  · intro e i h
    exact fix_vars_in_expr_removes σ vs (sizeOf e) e (Nat.le_refl _) i h
  · intro e interp asg
    rw [hid e]

/-- Witness for C6: a set member becomes a value-carrying Parameter, and
fixing the empty set returns the tree unchanged. -/
theorem fix_vars_in_expr_correct_witness :
    fix_vars_in_expr (fun _ => some [1]) (Expr.var 0 [2] [("nonneg", true)]) [0]
      = Expr.param [2] (some [1]) [("nonneg", true)]
    ∧ fix_vars_in_expr (fun _ => some [1]) (Expr.node "sum" [Expr.var 1 [] []]) []
      = Expr.node "sum" [Expr.var 1 [] []] := by
  constructor
  · exact (fix_vars_in_expr_correct (fun _ => some [1]) [0]).1 0 [2]
      [("nonneg", true)] (by decide)
  · exact (fix_vars_in_expr_correct (fun _ => some [1]) []).2.2.2.2.2.2.1
      (Expr.node "sum" [Expr.var 1 [] []])

/-! ### Frame properties of the heap-level fixer (for C9) -/

/-- Reading below the length of a prefix sees the prefix. -/
theorem prefix_getElem_eq (h h2 : Heap) (hp : h <+: h2) (a : Nat)
    (ha : a < h.length) : h2[a]? = h[a]? := by
  obtain ⟨t, rfl⟩ := hp
  exact List.getElem?_append_left ha

/-- Frame property of fixHArgs, given the frame property of fixH at the
same fuel: the heap only grows at the end, and every returned child
address is valid in the final heap. -/
theorem fixHArgs_frame_of (fuel : Nat)
    (hfix : ∀ σ h addr vs h2 addr2, fixH σ fuel h addr vs = some (h2, addr2) →
      h <+: h2 ∧ addr2 < h2.length ∧
      (h.length ≤ addr2 ∨ (h2 = h ∧ addr2 = addr))) :
    ∀ as σ h vs h2 as2, fixHArgs σ fuel h as vs = some (h2, as2) →
      h <+: h2 ∧ (∀ a ∈ as2, a < h2.length) := by
  intro as
  induction as with
  | nil =>
    intro σ h vs h2 as2 heq
    rw [fixHArgs] at heq
    simp only [Option.some.injEq, Prod.mk.injEq] at heq
    obtain ⟨rfl, rfl⟩ := heq
    exact ⟨List.prefix_refl h, by simp⟩
  | cons a as ih =>
    intro σ h vs h2 as2 heq
    rw [fixHArgs] at heq
    cases h1 : fixH σ fuel h a vs with
    | none => rw [h1] at heq; exact absurd heq (by simp)
    | some t1 =>
      obtain ⟨hm, a1⟩ := t1
      rw [h1] at heq
      dsimp only at heq
      cases h2eq : fixHArgs σ fuel hm as vs with
      | none => rw [h2eq] at heq; exact absurd heq (by simp)
      | some t2 =>
        obtain ⟨hr, asr⟩ := t2
        rw [h2eq] at heq
        dsimp only at heq
        simp only [Option.some.injEq, Prod.mk.injEq] at heq
        obtain ⟨rfl, rfl⟩ := heq
        obtain ⟨hp1, halt1, -⟩ := hfix σ h a vs hm a1 h1
        obtain ⟨hp2, hmem2⟩ := ih σ hm vs hr asr h2eq
        refine ⟨hp1.trans hp2, ?_⟩
        intro x hx
        rcases List.mem_cons.mp hx with rfl | hx
        · exact Nat.lt_of_lt_of_le halt1 hp2.length_le
        · exact hmem2 x hx

/-- Frame property of fixH: the input heap is an unchanged prefix of the
output heap, and the result is a valid address that is either freshly
allocated (a rebuilt inner node or a fixed variable) or exactly the input
address with the heap untouched (an aliased leaf, since Leaf.copy returns
self). -/
theorem fixH_frame :
    ∀ fuel σ h addr vs h2 addr2, fixH σ fuel h addr vs = some (h2, addr2) →
      h <+: h2 ∧ addr2 < h2.length ∧
      (h.length ≤ addr2 ∨ (h2 = h ∧ addr2 = addr)) := by
  intro fuel
  induction fuel with
  | zero =>
    intro σ h addr vs h2 addr2 heq
    rw [fixH] at heq
    exact absurd heq (by simp)
  | succ fuel ih =>
    intro σ h addr vs h2 addr2 heq
    rw [fixH] at heq
    cases hread : h[addr]? with
    | none => rw [hread] at heq; exact absurd heq (by simp)
    | some node0 =>
      rw [hread] at heq
      have haddr : addr < h.length := by
        by_contra hcon
        rw [List.getElem?_eq_none (Nat.le_of_not_lt hcon)] at hread
        exact absurd hread (by simp)
      have halias : h = h2 → addr = addr2 →
          h <+: h2 ∧ addr2 < h2.length ∧
          (h.length ≤ addr2 ∨ (h2 = h ∧ addr2 = addr)) := by
        intro hh ha
        subst hh
        subst ha
        exact ⟨List.prefix_refl h, haddr, Or.inr ⟨rfl, rfl⟩⟩
      cases node0 with
      | hvar id s a =>
        dsimp only at heq
        by_cases hmem : id ∈ vs
        · simp only [hmem, if_true] at heq
          simp only [Option.some.injEq, Prod.mk.injEq] at heq
          obtain ⟨rfl, rfl⟩ := heq.symm
          exact ⟨List.prefix_append h _, by simp, Or.inl (Nat.le_refl _)⟩
        · simp only [hmem, if_false] at heq
          simp only [Option.some.injEq, Prod.mk.injEq] at heq
          exact halias heq.1 heq.2
      | hconst v =>
        dsimp only at heq
        simp only [Option.some.injEq, Prod.mk.injEq] at heq
        exact halias heq.1 heq.2
      | hparam s v a =>
        dsimp only at heq
        simp only [Option.some.injEq, Prod.mk.injEq] at heq
        exact halias heq.1 heq.2
      | hnode k args =>
        dsimp only at heq
        cases hargs : fixHArgs σ fuel h args vs with
        | none => rw [hargs] at heq; exact absurd heq (by simp)
        | some t =>
          obtain ⟨h1, args1⟩ := t
          rw [hargs] at heq
          dsimp only at heq
          simp only [Option.some.injEq, Prod.mk.injEq] at heq
          obtain ⟨rfl, rfl⟩ := heq.symm
          obtain ⟨hp1, -⟩ := fixHArgs_frame_of fuel ih args σ h vs h1 args1 hargs
          exact ⟨hp1.trans (List.prefix_append h1 _), by simp,
            Or.inl hp1.length_le⟩

/-- Evaluation of a child list is preserved when the heap grows at the
end, given preservation for single nodes at the same fuel. -/
theorem evalHArgs_mono_of (interp : String → List Val → Option Val)
    (asg : Nat → Option Val) (fuel : Nat) (h h2 : Heap)
    (hone : ∀ addr v, evalH interp asg fuel h addr = some v →
      evalH interp asg fuel h2 addr = some v) :
    ∀ as vs2, evalHArgs interp asg fuel h as = some vs2 →
      evalHArgs interp asg fuel h2 as = some vs2 := by
  intro as
  induction as with
  | nil =>
    intro vs2 heq
    rw [evalHArgs] at heq ⊢
    exact heq
  | cons a as ih =>
    intro vs2 heq
    rw [evalHArgs] at heq ⊢
    cases h1 : evalH interp asg fuel h a with
    | none =>
      cases h2e : evalHArgs interp asg fuel h as with
      | none => rw [h1, h2e] at heq; exact absurd heq (by simp)
      | some vs => rw [h1, h2e] at heq; exact absurd heq (by simp)
    | some v =>
      cases h2e : evalHArgs interp asg fuel h as with
      | none => rw [h1, h2e] at heq; exact absurd heq (by simp)
      | some vs =>
        rw [h1, h2e] at heq
        rw [hone a v h1, ih vs h2e]
        exact heq

/-- Evaluation of a node is preserved when the heap grows at the end. -/
theorem evalH_mono (interp : String → List Val → Option Val)
    (asg : Nat → Option Val) :
    ∀ fuel h h2, h <+: h2 → ∀ addr v,
      evalH interp asg fuel h addr = some v →
      evalH interp asg fuel h2 addr = some v := by
  intro fuel
  induction fuel with
  | zero =>
    intro h h2 hp addr v heq
    rw [evalH] at heq
    exact absurd heq (by simp)
  | succ fuel ih =>
    intro h h2 hp addr v heq
    rw [evalH] at heq ⊢
    cases hread : h[addr]? with
    | none => rw [hread] at heq; exact absurd heq (by simp)
    | some nd =>
      have haddr : addr < h.length := by
        by_contra hcon
        rw [List.getElem?_eq_none (Nat.le_of_not_lt hcon)] at hread
        exact absurd hread (by simp)
      rw [hread] at heq
      rw [prefix_getElem_eq h h2 hp addr haddr, hread]
      cases nd with
      | hvar id s a => exact heq
      | hconst v0 => exact heq
      | hparam s v0 a => exact heq
      | hnode k args =>
        dsimp only at heq ⊢
        cases hargs : evalHArgs interp asg fuel h args with
        | none => rw [hargs] at heq; exact absurd heq (by simp)
        | some vs =>
          rw [hargs] at heq
          rw [evalHArgs_mono_of interp asg fuel h h2 (ih h h2 hp) args vs hargs]
          exact heq

/-- Counterexample to C9 as frozen: cvxpy Leaf.copy returns self, so
fixing a variable set that does not touch a leaf returns that original
leaf at its original address in the untouched heap - it is not a fresh
copy (the returned address 0 is below the original heap length 1). -/
theorem fix_vars_in_expr_aliases_untouched_leaf :
    fixH (fun _ => some [5]) 1 [HNode.hvar 1 [] []] 0 [0]
      = some ([HNode.hvar 1 [] []], 0)
    ∧ ¬ List.length [HNode.hvar 1 [] []] ≤ 0 := by
  constructor
  · rw [fixH]
    rfl
  · decide

/-- C9 amended: the heap-level fix_vars_in_expr never mutates the input
tree: the input heap is an unchanged prefix of the output heap (so every
original node keeps its identity and children), the result is a valid
node that is either freshly allocated (a rebuilt inner node, or a
variable being fixed into a Parameter) or exactly the original input
node (an untouched leaf, aliased because cvxpy Leaf.copy returns self),
and the evaluated value of every original node is unchanged. -/
theorem fix_vars_in_expr_no_mutation (σ : Nat → Option Val) (fuel : Nat)
    (h h2 : Heap) (addr addr2 : Nat) (vs : List Nat)
    (hfix : fixH σ fuel h addr vs = some (h2, addr2)) :
    h <+: h2
    ∧ (∀ a, a < h.length → h2[a]? = h[a]?)
    ∧ addr2 < h2.length
    ∧ (h.length ≤ addr2 ∨ (h2 = h ∧ addr2 = addr))
    ∧ (∀ interp asg fuel2 a v,
        evalH interp asg fuel2 h a = some v →
        evalH interp asg fuel2 h2 a = some v) := by
  obtain ⟨hp, hv, hor⟩ := fixH_frame fuel σ h addr vs h2 addr2 hfix
  exact ⟨hp, fun a haa => prefix_getElem_eq h h2 hp a haa, hv, hor,
    fun interp asg fuel2 a v hval => evalH_mono interp asg fuel2 h h2 hp a v hval⟩

/-- A three-node heap holding the tree add(x0, x1), for the C9 witness. -/
def heapW : Heap := [HNode.hvar 0 [] [], HNode.hvar 1 [] [], HNode.hnode "add" [0, 1]]

/-- The heap after fixing variable 0 in the C9 witness: x0 becomes a
fresh Parameter at address 3, the untouched leaf x1 stays aliased at
address 1, and the rebuilt root node is fresh at address 4. -/
def heapW2 : Heap :=
  heapW ++ [HNode.hparam [] (some [5]) [], HNode.hnode "add" [3, 1]]

/-- Witness for C9 on the concrete heap: fixing x0 in add(x0, x1) leaves
node 2 of the original heap intact, allocates the rebuilt root at a
fresh address, and preserves the original root's evaluated value. -/
theorem fix_vars_in_expr_no_mutation_witness :
    heapW <+: heapW2
    ∧ heapW2[2]? = heapW[2]?
    ∧ 4 < heapW2.length
    ∧ (heapW.length ≤ 4 ∨ (heapW2 = heapW ∧ 4 = 2))
    ∧ evalH (fun _ _ => some [7]) (fun _ => some [0]) 3 heapW2 2 = some [7] := by
  have hfix : fixH (fun _ => some [5]) 3 heapW 2 [0] = some (heapW2, 4) := by
    rw [fixH]
    simp [heapW, heapW2, fixHArgs, fixH]
  have H := fix_vars_in_expr_no_mutation (fun _ => some [5]) 3 heapW heapW2 2 4 [0] hfix
  refine ⟨H.1, H.2.1 2 (by simp [heapW]), H.2.2.1, H.2.2.2.1, ?_⟩
  refine H.2.2.2.2 (fun _ _ => some [7]) (fun _ => some [0]) 3 2 [7] ?_
  rw [evalH]
  simp [heapW, evalHArgs, evalH]

/-! ### The saddle-point problem, the solver oracle, and _solve_DR -/

/-- Direction of a constructed cvxpy sub-problem. -/
inductive Sense where
| mini
| maxi
deriving DecidableEq, Repr

/-- A sub-problem handed to the external solver:
cp.Problem(sense(objective), constraints). -/
structure SubProblem where
  sense : Sense
  obj : Expr
  cons : List Constr

/-- The external convex solver as an opaque, possibly stateful oracle.
The Nat argument counts the solve calls made so far; the answer is the
list of values the solver assigns to the free side's variables (one per
declared variable of that side, in order) together with the optimal
value, or none for any non-optimal status. -/
def Solver : Type := Nat → SubProblem → Option (List Val × ℚ)

/-- A SaddlePointProblem (problem.py 152-166): objective, constraints and
the two players' variable lists. -/
structure SPP where
  objective : Expr
  constraints : List Constr
  min_vars : List VarDecl
  max_vars : List VarDecl

/-- The mutable values of the two players' variables, position-aligned
with min_vars and max_vars (cvxpy's Variable.value slots). -/
structure DRState where
  minVals : List (Option Val)
  maxVals : List (Option Val)
deriving DecidableEq, Repr

/-- Read the current value of the variable with the given id (v.value). -/
def assignOf (P : SPP) (s : DRState) : Nat → Option Val := fun i =>
  match P.min_vars.findIdx? (fun v => v.vid == i) with
  | some j => (s.minVals[j]?).getD none
  | none =>
    match P.max_vars.findIdx? (fun v => v.vid == i) with
    | some j => (s.maxVals[j]?).getD none
    | none => none

/-- Set equality of two id lists (python's set(a) == set(b)). -/
def sameIdSet (a b : List Nat) : Bool :=
  a.all (fun i => i ∈ b) && b.all (fun i => i ∈ a)

/-- The non-fixed variables of fix_vars (problem.py 190-191). -/
def nonFixedOf (P : SPP) (fixed : List VarDecl) : List VarDecl :=
  (P.min_vars ++ P.max_vars).filter (fun v => !(fixed.contains v))

/-- The constraint filtering of fix_vars (problem.py 196-205): a
constraint meeting the fixed side must not meet the free side (assert)
and is dropped; a constraint meeting only the free side is kept; one
meeting neither raises ValueError. -/
def relevantConstraints (fixedIds freeIds : List Nat) : List Constr → Option (List Constr)
| [] => some []
| c :: cs =>
  if touches c fixedIds then
    if touches c freeIds then none
    else relevantConstraints fixedIds freeIds cs
  else if touches c freeIds then
    match relevantConstraints fixedIds freeIds cs with
    | none => none
    | some r => some (c :: r)
  else none

/-- Embeds SaddlePointProblem.fix_vars (problem.py 187-207): assert the
fixed set is one of the two player sets, freeze the fixed variables in
the objective, and keep exactly the constraints owned by the free side. -/
def fix_vars (P : SPP) (fixed : List VarDecl) (σ : Nat → Option Val) :
    Option (Expr × List Constr) :=
  if sameIdSet (idsOf fixed) (idsOf P.min_vars)
      || sameIdSet (idsOf fixed) (idsOf P.max_vars) then
    match relevantConstraints (idsOf fixed) (idsOf (nonFixedOf P fixed)) P.constraints with
    | none => none
    | some rcs => some (fix_vars_in_expr σ P.objective (idsOf fixed), rcs)
  else none

/-- Componentwise sum of two flattened arrays. -/
def vecAdd (a b : Val) : Val := List.zipWith (fun x y => x + y) a b

/-- np.mean(hist, axis=0), flattened: the Cesàro average of a variable's
recorded iterate history. -/
def histMean (hist : List Val) : Val :=
  match hist with
  | [] => []
  | v :: vs => (vs.foldl vecAdd v).map (fun x => x / (vs.length + 1 : ℚ))

/-- The aggregate point (problem.py 276-277):
np.hstack([np.mean(v, axis=0).flatten() for v in min_vars_hist + max_vars_hist]). -/
def aggregateOf (minHist maxHist : List (List Val)) : List ℚ :=
  ((minHist ++ maxHist).map histMean).flatten

/-- np.linalg.norm(a - b, np.inf) for flattened aggregate points. -/
def infNormSub (a b : List ℚ) : ℚ :=
  (List.zipWith (fun x y => |x - y|) a b).foldr max 0

/-- The ids referenced by the objective or by any constraint: the
variables of cp.Problem(cp.Minimize(self.objective), self.constraints)
(the `variables` property, problem.py 168-170). -/
def referencedIds (P : SPP) : List Nat :=
  varsOf P.objective ++ (P.constraints.map (fun c => c.cvars)).flatten

/-- The declared variables the problem actually references: these are
`self.variables`, which size the plot_array rows (problem.py 233).  A
declared variable appearing in neither the objective nor any constraint
is not among them.  The embedding assumes every referenced variable is
declared on one of the two sides. -/
def problemVars (P : SPP) : List VarDecl :=
  (P.min_vars ++ P.max_vars).filter (fun v => (referencedIds P).contains v.vid)

/-- sum(v.size for v in self.variables): the width of the
zero-initialized plot_array rows (problem.py 233). -/
def totalSize (P : SPP) : Nat :=
  ((problemVars P).map (fun v => v.shape.foldr (fun a b => a * b) 1)).sum

/-- numpy row assignment `plot_array[k-1] = current_array`
(problem.py 279): the assigned value must match the row width exactly,
or be a single scalar that numpy broadcasts across the row; any other
width raises ValueError. -/
def broadcastAssign (w : Nat) (cur : List ℚ) : Option (List ℚ) :=
  if cur.length = w then some cur
  else if cur.length = 1 then some (List.replicate w (cur.headD 0))
  else none

/-- A solver-status abort (a failed `assert status == OPTIMAL`): the
variable state at the failing call, the index of the call, and the
sub-problem whose solve was non-optimal. -/
structure AbortInfo where
  state : DRState
  callIdx : Nat
  failedProb : SubProblem

/-- State carried across iterations of the _solve_DR loop: variable
values, the two histories, the plot_array rows, and the number of solver
calls made so far. -/
structure LoopSt where
  s : DRState
  minHist : List (List Val)
  maxHist : List (List Val)
  plot : List (List ℚ)
  ctr : Nat

/-- Outcome of one iteration of the loop body. -/
inductive IterOut where
| fail (info : AbortInfo)
| merr
| brk (ls : LoopSt)
| cont (ls : LoopSt)

/-- One iteration k of the _solve_DR loop (problem.py 241-285): the
maximizer best-response with the minimizer fixed and a subtracted
proximal penalty (241-247), its history recording (249-253), the
minimizer best-response against the just-updated maximizer values with an
added proximal penalty (255-265), its history recording (267-271), and
the stopping test over the aggregate points (273-285), whose plot-row
write `plot_array[k-1] = current_array` (line 279) raises ValueError
when the aggregate width neither equals the plot row width nor is 1. -/
def drIteration (P : SPP) (solver : Solver) (alpha eps : ℚ) (k : Nat)
    (ls : LoopSt) : IterOut :=
  match fix_vars P P.min_vars (assignOf P ls.s) with
  | none => IterOut.merr
  | some (fobj, fcons) =>
    let mobj := Expr.node "sub" [fobj,
      Expr.node "mul" [Expr.const (some [alpha]),
        Expr.node "sum" [Expr.node "hstack" (P.max_vars.map (fun v =>
          Expr.node "sum_squares" [Expr.node "sub"
            [Expr.var v.vid v.shape v.attrs,
             Expr.const (assignOf P ls.s v.vid)]]))]]]
    let mprob : SubProblem := ⟨Sense.maxi, mobj, fcons⟩
    match solver ls.ctr mprob with
    | none => IterOut.fail ⟨ls.s, ls.ctr, mprob⟩
    | some (newMax, _) =>
      let s1 : DRState := ⟨ls.s.minVals, newMax.map some⟩
      let maxHist1 := if k = 0 then newMax.map (fun v => [v])
        else List.zipWith (fun hist nv => hist ++ [nv]) ls.maxHist newMax
      match fix_vars P P.max_vars (assignOf P s1) with
      | none => IterOut.merr
      | some (gobj, gcons) =>
        let nobj := Expr.node "add" [gobj,
          Expr.node "mul" [Expr.const (some [alpha]),
            Expr.node "sum" [Expr.node "hstack" (P.min_vars.map (fun v =>
              Expr.node "sum_squares" [Expr.node "sub"
                [Expr.var v.vid v.shape v.attrs,
                 Expr.const (assignOf P s1 v.vid)]]))]]]
        let nprob : SubProblem := ⟨Sense.mini, nobj, gcons⟩
        match solver (ls.ctr + 1) nprob with
        | none => IterOut.fail ⟨s1, ls.ctr + 1, nprob⟩
        | some (newMin, _) =>
          let s2 : DRState := ⟨newMin.map some, s1.maxVals⟩
          let minHist1 := if k = 0 then newMin.map (fun v => [v])
            else List.zipWith (fun hist nv => hist ++ [nv]) ls.minHist newMin
          if k > 0 then
            let current := aggregateOf minHist1 maxHist1
            match broadcastAssign (totalSize P) current with
            | none => IterOut.merr
            | some row =>
              let plot1 := ls.plot.set (k - 1) row
              if k > 1 then
                if infNormSub ((plot1[k - 2]?).getD []) row ≤ eps then
                  IterOut.brk ⟨s2, minHist1, maxHist1, plot1, ls.ctr + 2⟩
                else IterOut.cont ⟨s2, minHist1, maxHist1, plot1, ls.ctr + 2⟩
              else IterOut.cont ⟨s2, minHist1, maxHist1, plot1, ls.ctr + 2⟩
          else IterOut.cont ⟨s2, minHist1, maxHist1, ls.plot, ls.ctr + 2⟩

/-- Result of running the iteration loop. -/
inductive LoopResult where
| fail (info : AbortInfo)
| merr
| done (ls : LoopSt)

/-- The `for k in range(max_iters)` loop of _solve_DR, structurally
recursive on the remaining iteration budget. -/
def drLoop (P : SPP) (solver : Solver) (alpha eps : ℚ) :
    Nat → Nat → LoopSt → LoopResult
| _, 0, ls => LoopResult.done ls
| k, fuel + 1, ls =>
  match drIteration P solver alpha eps k ls with
  | IterOut.fail info => LoopResult.fail info
  | IterOut.merr => LoopResult.merr
  | IterOut.brk ls1 => LoopResult.done ls1
  | IterOut.cont ls1 => drLoop P solver alpha eps (k + 1) fuel ls1

/-- 0 * cp.sum(cp.hstack([cp.vec(v) for v in side_vars]))
(problem.py 296 and 304). -/
def zeroWeighted (vs : List VarDecl) : Expr :=
  Expr.node "mul" [Expr.const (some [0]),
    Expr.node "sum" [Expr.node "hstack" (vs.map (fun v =>
      Expr.node "vec" [Expr.var v.vid v.shape v.attrs]))]]

/-- Result of initialize_variables. -/
inductive InitOut where
| fail (info : AbortInfo)
| merr
| ok (s : DRState) (ctr : Nat)

/-- Embeds initialize_variables (problem.py 293-307): a feasibility-only
minimization with a zero-weighted objective over all minimizer variables
and the minimizer-side constraints gives every minimizer variable a
value, then symmetrically for the maximizer side; a non-optimal status in
either solve aborts. -/
def initVariables (P : SPP) (solver : Solver) (ctr : Nat) (s0 : DRState) : InitOut :=
  match fix_vars P P.max_vars (assignOf P s0) with
  | none => InitOut.merr
  | some (_, minCons) =>
    let p1 : SubProblem := ⟨Sense.mini,
      Expr.node "add" [Expr.const (some [0]), zeroWeighted P.min_vars], minCons⟩
    match solver ctr p1 with
    | none => InitOut.fail ⟨s0, ctr, p1⟩
    | some (newMin, _) =>
      let s1 : DRState := ⟨newMin.map some, s0.maxVals⟩
      match fix_vars P P.min_vars (assignOf P s1) with
      | none => InitOut.merr
      | some (_, maxCons) =>
        let p2 : SubProblem := ⟨Sense.maxi,
          Expr.node "add" [Expr.const (some [0]), zeroWeighted P.max_vars], maxCons⟩
        match solver (ctr + 1) p2 with
        | none => InitOut.fail ⟨s1, ctr + 1, p2⟩
        | some (newMax, _) => InitOut.ok ⟨s1.minVals, newMax.map some⟩ (ctr + 2)

/-- Result of a successful _validate_saddlepoint: final variable state,
saddle gap, and the two one-sided optimal values. -/
structure VRes where
  state : DRState
  gap : ℚ
  maxObjVal : ℚ
  minObjVal : ℚ

/-- Outcome of _validate_saddlepoint. -/
inductive VOut where
| fail (info : AbortInfo)
| merr
| ok (r : VRes)

/-- Embeds _validate_saddlepoint (problem.py 309-334): snapshot both
sides' values, re-solve the maximizer side without proximal terms,
restore the maximizer snapshot, re-solve the minimizer side (against the
restored maximizer values), restore the minimizer snapshot, and report
the absolute objective gap. -/
def validateSaddle (P : SPP) (solver : Solver) (ctr : Nat) (s : DRState) : VOut :=
  let preMax := s.maxVals
  let preMin := s.minVals
  match fix_vars P P.min_vars (assignOf P s) with
  | none => VOut.merr
  | some (mobj, mcons) =>
    let p1 : SubProblem := ⟨Sense.maxi, mobj, mcons⟩
    match solver ctr p1 with
    | none => VOut.fail ⟨s, ctr, p1⟩
    | some (newMax, vMax) =>
      let s1 : DRState := ⟨s.minVals, newMax.map some⟩
      let s2 : DRState := ⟨s1.minVals, preMax⟩
      match fix_vars P P.max_vars (assignOf P s2) with
      | none => VOut.merr
      | some (nobj, ncons) =>
        let p2 : SubProblem := ⟨Sense.mini, nobj, ncons⟩
        match solver (ctr + 1) p2 with
        | none => VOut.fail ⟨s2, ctr + 1, p2⟩
        | some (newMin, vMin) =>
          let s3 : DRState := ⟨newMin.map some, s2.maxVals⟩
          let s4 : DRState := ⟨preMin, s3.maxVals⟩
          VOut.ok ⟨s4, |vMax - vMin|, vMax, vMin⟩

/-- The outcome of a successful _solve_DR: the state after finalization
and validation, the two recorded histories, and the validation report. -/
structure FinalOut where
  state : DRState
  minHist : List (List Val)
  maxHist : List (List Val)
  gap : ℚ
  maxObjVal : ℚ
  minObjVal : ℚ

/-- Outcome of _solve_DR. -/
inductive DRResult where
| ok (out : FinalOut)
| solverFail (info : AbortInfo)
| modelFail

/-- Embeds _solve_DR (problem.py 228-291): the alpha argument is
unconditionally overwritten with the constant 2 (line 229), variables are
initialized, np.zeros rejects max_iters = 0 (negative first dimension),
the loop runs for k in range(max_iters), and on completion every variable
is set to the mean of its recorded history and the saddle point is
validated. -/
def solveDR (P : SPP) (solver : Solver) (maxIters : Nat) (alpha eps : ℚ)
    (s0 : DRState) : DRResult :=
  let alpha := (2 : ℚ)
  match initVariables P solver 0 s0 with
  | InitOut.fail info => DRResult.solverFail info
  | InitOut.merr => DRResult.modelFail
  | InitOut.ok s1 ctr =>
    if maxIters = 0 then DRResult.modelFail
    else
      let plot0 : List (List ℚ) :=
        List.replicate (maxIters - 1) (List.replicate (totalSize P) 0)
      match drLoop P solver alpha eps 0 maxIters ⟨s1, [], [], plot0, ctr⟩ with
      | LoopResult.fail info => DRResult.solverFail info
      | LoopResult.merr => DRResult.modelFail
      | LoopResult.done ls =>
        let sFin : DRState :=
          ⟨ls.minHist.map (fun hist => some (histMean hist)),
           ls.maxHist.map (fun hist => some (histMean hist))⟩
        match validateSaddle P solver ls.ctr sFin with
        | VOut.fail info => DRResult.solverFail info
        | VOut.merr => DRResult.modelFail
        | VOut.ok r =>
          DRResult.ok ⟨r.state, ls.minHist, ls.maxHist, r.gap, r.maxObjVal, r.minObjVal⟩

/-! ### Basic facts about fix_vars -/

/-- Set equality of a list with itself. -/
theorem sameIdSet_refl (a : List Nat) : sameIdSet a a = true := by
  simp [sameIdSet, List.all_eq_true]

/-- fix_vars on the minimizer side reduces to the constraint filtering. -/
theorem fix_vars_min_eq (P : SPP) (σ : Nat → Option Val) :
    fix_vars P P.min_vars σ =
      match relevantConstraints (idsOf P.min_vars)
          (idsOf (nonFixedOf P P.min_vars)) P.constraints with
      | none => none
      | some rcs =>
        some (fix_vars_in_expr σ P.objective (idsOf P.min_vars), rcs) := by
  unfold fix_vars
  rw [if_pos]
  rw [sameIdSet_refl]
  simp

/-- fix_vars on the maximizer side reduces to the constraint filtering. -/
theorem fix_vars_max_eq (P : SPP) (σ : Nat → Option Val) :
    fix_vars P P.max_vars σ =
      match relevantConstraints (idsOf P.max_vars)
          (idsOf (nonFixedOf P P.max_vars)) P.constraints with
      | none => none
      | some rcs =>
        some (fix_vars_in_expr σ P.objective (idsOf P.max_vars), rcs) := by
  unfold fix_vars
  rw [if_pos]
  rw [sameIdSet_refl]
  simp

/-- C7: the alpha argument accepted by _solve_DR has no effect on the
computation: it is unconditionally overwritten by the constant 2 before
first use, so two calls differing only in alpha build identical
sub-problems and produce identical results. -/
theorem solveDR_alpha_irrelevant (P : SPP) (solver : Solver) (maxIters : Nat)
    (a1 a2 eps : ℚ) (s0 : DRState) :
    solveDR P solver maxIters a1 eps s0 = solveDR P solver maxIters a2 eps s0 := rfl

/-- Helper: on success _validate_saddlepoint returns the state it was
given (both snapshots restored) and the gap is the absolute difference of
the two reported optima. -/
theorem validateSaddle_state_eq (P : SPP) (solver : Solver) (ctr : Nat)
    (s : DRState) (r : VRes) (hok : validateSaddle P solver ctr s = VOut.ok r) :
    r.state.minVals = s.minVals ∧ r.state.maxVals = s.maxVals
    ∧ r.gap = |r.maxObjVal - r.minObjVal| := by
  unfold validateSaddle at hok
  cases h1 : fix_vars P P.min_vars (assignOf P s) with
  | none => rw [h1] at hok; exact absurd hok (by simp)
  | some t1 =>
    obtain ⟨mobj, mcons⟩ := t1
    rw [h1] at hok
    dsimp only at hok
    cases h2 : solver ctr ⟨Sense.maxi, mobj, mcons⟩ with
    | none => rw [h2] at hok; exact absurd hok (by simp)
    | some t2 =>
      obtain ⟨newMax, vMax⟩ := t2
      rw [h2] at hok
      dsimp only at hok
      cases h3 : fix_vars P P.max_vars (assignOf P ⟨s.minVals, s.maxVals⟩) with
      | none => rw [h3] at hok; exact absurd hok (by simp)
      | some t3 =>
        obtain ⟨nobj, ncons⟩ := t3
        rw [h3] at hok
        dsimp only at hok
        cases h4 : solver (ctr + 1) ⟨Sense.mini, nobj, ncons⟩ with
        | none => rw [h4] at hok; exact absurd hok (by simp)
        | some t4 =>
          obtain ⟨newMin, vMin⟩ := t4
          rw [h4] at hok
          dsimp only at hok
          cases hok
          exact ⟨rfl, rfl, rfl⟩

/-- C10: _validate_saddlepoint snapshots all maximizer and minimizer
variable values before its two one-sided re-solves and restores each
snapshot afterwards, so a successful validation returns exactly the
variable state it was given (the Cesàro averages), despite the validation
solves side-effecting the variable values in between. -/
theorem validateSaddle_restores (P : SPP) (solver : Solver) (ctr : Nat)
    (s : DRState) (r : VRes) (hok : validateSaddle P solver ctr s = VOut.ok r) :
    r.state.minVals = s.minVals ∧ r.state.maxVals = s.maxVals
    ∧ r.gap = |r.maxObjVal - r.minObjVal| :=
  validateSaddle_state_eq P solver ctr s r hok

/-- The two-variable saddle problem used by the concrete witnesses:
minimize over x0, maximize over x1, objective x0 - x1, one constraint
owned by each side. -/
def sppW : SPP :=
  ⟨Expr.node "sub" [Expr.var 0 [] [], Expr.var 1 [] []],
   [⟨0, [0]⟩, ⟨1, [1]⟩], [⟨0, [], []⟩], [⟨1, [], []⟩]⟩

/-- A solver oracle that always reports optimum 0 and assigns value [3]
to the (single) free variable of whichever sub-problem it is handed. -/
def solW : Solver := fun _ _ => some ([[3]], 0)

/-- A starting state for the witnesses: both variables hold [0]. -/
def stW : DRState := ⟨[some [0]], [some [0]]⟩

/-- Witness for C10: the validation solves assign [3] to the variables,
yet the returned state is the input state. -/
theorem validateSaddle_restores_witness :
    (VRes.mk stW |(0 : ℚ) - 0| 0 0).state.minVals = stW.minVals
    ∧ (VRes.mk stW |(0 : ℚ) - 0| 0 0).state.maxVals = stW.maxVals
    ∧ (VRes.mk stW |(0 : ℚ) - 0| 0 0).gap
      = |(VRes.mk stW |(0 : ℚ) - 0| 0 0).maxObjVal
          - (VRes.mk stW |(0 : ℚ) - 0| 0 0).minObjVal| :=
  validateSaddle_restores sppW solW 0 stW (VRes.mk stW |(0 : ℚ) - 0| 0 0) rfl

/-- C1: when _solve_DR finishes its alternating loop (converged or budget
exhausted) without a sub-solve error, every minimizer variable and every
maximizer variable holds the arithmetic mean of its entire recorded
iterate history (the Cesàro average), not the raw last iterate. -/
theorem solveDR_finalizes_to_means (P : SPP) (solver : Solver)
    (maxIters : Nat) (alpha eps : ℚ) (s0 : DRState) (out : FinalOut)
    (hok : solveDR P solver maxIters alpha eps s0 = DRResult.ok out) :
    out.state.minVals = out.minHist.map (fun hist => some (histMean hist))
    ∧ out.state.maxVals = out.maxHist.map (fun hist => some (histMean hist)) := by
  unfold solveDR at hok
  cases hi : initVariables P solver 0 s0 with
  | fail info => rw [hi] at hok; exact absurd hok (by simp)
  | merr => rw [hi] at hok; exact absurd hok (by simp)
  | ok s1 ctr =>
    rw [hi] at hok
    dsimp only at hok
    by_cases hm0 : maxIters = 0
    · rw [if_pos hm0] at hok
      exact absurd hok (by simp)
    · rw [if_neg hm0] at hok
      cases hl : drLoop P solver 2 eps 0 maxIters
          ⟨s1, [], [],
           List.replicate (maxIters - 1) (List.replicate (totalSize P) 0), ctr⟩ with
      | fail info => rw [hl] at hok; exact absurd hok (by simp)
      | merr => rw [hl] at hok; exact absurd hok (by simp)
      | done ls =>
        rw [hl] at hok
        dsimp only at hok
        cases hv : validateSaddle P solver ls.ctr
            ⟨ls.minHist.map (fun hist => some (histMean hist)),
             ls.maxHist.map (fun hist => some (histMean hist))⟩ with
        | fail info => rw [hv] at hok; exact absurd hok (by simp)
        | merr => rw [hv] at hok; exact absurd hok (by simp)
        | ok r =>
          rw [hv] at hok
          dsimp only at hok
          cases hok
          obtain ⟨hmin, hmax, -⟩ := validateSaddle_state_eq P solver ls.ctr _ r hv
          exact ⟨hmin, hmax⟩

/-- The concrete outcome of solveDR sppW solW 1 1 0 stW, for the C1
witness: a single iteration records one entry [3] per variable's history
and finalization stores the history means. -/
def outW : FinalOut :=
  ⟨⟨[some (histMean [[3]])], [some (histMean [[3]])]⟩,
   [[[3]]], [[[3]]], |(0 : ℚ) - 0|, 0, 0⟩

/-- Witness for C1 on a concrete run with max_iters = 1. -/
theorem solveDR_finalizes_to_means_witness :
    outW.state.minVals = outW.minHist.map (fun hist => some (histMean hist))
    ∧ outW.state.maxVals = outW.maxHist.map (fun hist => some (histMean hist)) :=
  solveDR_finalizes_to_means sppW solW 1 1 0 stW outW rfl

/-- The feasibility-only sub-problem initialize_variables builds for one
side (problem.py 296-298 and 304-305). -/
def initProb (sense : Sense) (vs : List VarDecl) (cons : List Constr) : SubProblem :=
  ⟨sense, Expr.node "add" [Expr.const (some [0]), zeroWeighted vs], cons⟩

/-- The zero-weighted objective term references exactly the declared
variables of its side. -/
theorem varsOf_zeroWeighted (vs : List VarDecl) :
    varsOf (zeroWeighted vs) = idsOf vs := by
  have h : ∀ l : List VarDecl,
      varsOfList (l.map (fun v => Expr.node "vec" [Expr.var v.vid v.shape v.attrs]))
        = idsOf l := by
    intro l
    induction l with
    | nil => simp [varsOfList, idsOf]
    | cons v l ih => simp [varsOfList, varsOf, idsOf, ih]
    <;> rfl
  simp [zeroWeighted, varsOf, varsOfList, h]

/-- The whole feasibility objective 0 + zero-weighted-sum references
exactly the declared variables of its side. -/
theorem varsOf_initObj (vs : List VarDecl) :
    varsOf (Expr.node "add" [Expr.const (some [0]), zeroWeighted vs]) = idsOf vs := by
  have h := varsOf_zeroWeighted vs
  simp only [varsOf, varsOfList] at h ⊢
  simp [h]

/-- C8: before the iteration loop, initialization solves for each side
independently a feasibility-only problem whose zero-weighted objective
spans all of that side's declared variables, over that side's own
constraints, so that after success every declared variable (including
ones in neither the objective nor any constraint) holds a defined value;
either feasibility solve returning non-optimal is a failure. -/
theorem initVariables_correct (P : SPP) (solver : Solver) (ctr : Nat)
    (s0 : DRState) (minCons maxCons : List Constr)
    (hy : relevantConstraints (idsOf P.max_vars)
      (idsOf (nonFixedOf P P.max_vars)) P.constraints = some minCons)
    (hx : relevantConstraints (idsOf P.min_vars)
      (idsOf (nonFixedOf P P.min_vars)) P.constraints = some maxCons) :
    (∀ v ∈ P.min_vars, v.vid ∈ varsOf (initProb Sense.mini P.min_vars minCons).obj)
    ∧ (∀ v ∈ P.max_vars, v.vid ∈ varsOf (initProb Sense.maxi P.max_vars maxCons).obj)
    ∧ (solver ctr (initProb Sense.mini P.min_vars minCons) = none →
        initVariables P solver ctr s0
          = InitOut.fail ⟨s0, ctr, initProb Sense.mini P.min_vars minCons⟩)
    ∧ (∀ a wa, solver ctr (initProb Sense.mini P.min_vars minCons) = some (a, wa) →
        (solver (ctr + 1) (initProb Sense.maxi P.max_vars maxCons) = none →
          initVariables P solver ctr s0
            = InitOut.fail ⟨⟨a.map some, s0.maxVals⟩, ctr + 1,
                initProb Sense.maxi P.max_vars maxCons⟩)
        ∧ (∀ b wb,
            solver (ctr + 1) (initProb Sense.maxi P.max_vars maxCons) = some (b, wb) →
            initVariables P solver ctr s0
              = InitOut.ok ⟨a.map some, b.map some⟩ (ctr + 2)
            ∧ (∀ o ∈ (a.map some : List (Option Val)), o.isSome = true)
            ∧ (∀ o ∈ (b.map some : List (Option Val)), o.isSome = true))) := by
  have hobj : ∀ (sense : Sense) (vs : List VarDecl) (cons : List Constr),
      ∀ v ∈ vs, v.vid ∈ varsOf (initProb sense vs cons).obj := by
    intro sense vs cons v hv
    have h1 : (initProb sense vs cons).obj
        = Expr.node "add" [Expr.const (some [0]), zeroWeighted vs] := rfl
    rw [h1, varsOf_initObj]
    exact List.mem_map_of_mem VarDecl.vid hv
  refine ⟨hobj Sense.mini P.min_vars minCons, hobj Sense.maxi P.max_vars maxCons, ?_, ?_⟩
  · intro hfail
    simp only [initProb] at hfail ⊢
    unfold initVariables
    rw [fix_vars_max_eq, hy]
    dsimp only
    rw [hfail]
  · intro a wa h1
    simp only [initProb] at h1
    constructor
    · intro hfail
      simp only [initProb] at hfail ⊢
      unfold initVariables
      rw [fix_vars_max_eq, hy]
      dsimp only
      rw [h1]
      dsimp only
      rw [fix_vars_min_eq, hx]
      dsimp only
      rw [hfail]
    · intro b wb h2
      simp only [initProb] at h2
      refine ⟨?_, ?_, ?_⟩
      · unfold initVariables
        rw [fix_vars_max_eq, hy]
        dsimp only
        rw [h1]
        dsimp only
        rw [fix_vars_min_eq, hx]
        dsimp only
        rw [h2]
      · intro o ho
        rw [List.mem_map] at ho
        obtain ⟨x, -, rfl⟩ := ho
        rfl
      · intro o ho
        rw [List.mem_map] at ho
        obtain ⟨x, -, rfl⟩ := ho
        rfl

/-- Witness for C8: starting from undefined values, both feasibility
solves succeed and every declared variable ends with a defined value. -/
theorem initVariables_correct_witness :
    initVariables sppW solW 0 ⟨[none], [none]⟩ = InitOut.ok ⟨[some [3]], [some [3]]⟩ 2
    ∧ (0 ∈ varsOf (initProb Sense.mini sppW.min_vars [Constr.mk 0 [0]]).obj) := by
  have H := initVariables_correct sppW solW 0 ⟨[none], [none]⟩
    [Constr.mk 0 [0]] [Constr.mk 1 [1]] (by decide) (by decide)
  constructor
  · exact ((H.2.2.2 [[3]] 0 rfl).2 [[3]] 0 rfl).1
  · exact H.1 ⟨0, [], []⟩ (by decide)

/-! ### The shape of the per-iteration sub-problems (C3) -/

/-- On success, the fix_vars constraint filtering keeps exactly the
constraints meeting the free side. -/
theorem relevantConstraints_eq_filter (fixedIds freeIds : List Nat) :
    ∀ cs r, relevantConstraints fixedIds freeIds cs = some r →
    r = cs.filter (fun c => touches c freeIds) := by
  intro cs
  induction cs with
  | nil =>
    intro r h
    simp only [relevantConstraints, Option.some.injEq] at h
    simp [← h]
  | cons c cs ih =>
    intro r h
    simp only [relevantConstraints] at h
    by_cases h1 : touches c fixedIds
    · by_cases h2 : touches c freeIds
      · simp [h1, h2] at h
      · simp only [h1, h2, if_true, if_false, Bool.false_eq_true] at h
        rw [List.filter_cons_of_neg (by simp [h2])]
        exact ih r h
    · by_cases h2 : touches c freeIds
      · simp only [h1, h2, if_false, if_true, Bool.false_eq_true] at h
        cases hrec : relevantConstraints fixedIds freeIds cs with
        | none => rw [hrec] at h; exact absurd h (by simp)
        | some r0 =>
          rw [hrec] at h
          simp only [Option.some.injEq] at h
          rw [List.filter_cons_of_pos (by simp [h2]), ← h, ih r0 hrec]
      · simp [h1, h2] at h

/-- With disjoint player sets, the non-fixed side of fixing the
minimizers is exactly the maximizer list. -/
theorem nonFixedOf_min (P : SPP) (hdisj : ∀ v ∈ P.min_vars, v ∉ P.max_vars) :
    nonFixedOf P P.min_vars = P.max_vars := by
  unfold nonFixedOf
  rw [List.filter_append]
  have h1 : P.min_vars.filter (fun v => !(P.min_vars.contains v)) = [] := by
    rw [List.filter_eq_nil_iff]
    intro a ha
    simp [List.elem_iff, ha]
  have h2 : P.max_vars.filter (fun v => !(P.min_vars.contains v)) = P.max_vars := by
    rw [List.filter_eq_self]
    intro a ha
    have : a ∉ P.min_vars := fun hmem => hdisj a hmem ha
    simp [List.elem_iff, this]
  rw [h1, h2, List.nil_append]

/-- With disjoint player sets, the non-fixed side of fixing the
maximizers is exactly the minimizer list. -/
theorem nonFixedOf_max (P : SPP) (hdisj : ∀ v ∈ P.min_vars, v ∉ P.max_vars) :
    nonFixedOf P P.max_vars = P.min_vars := by
  unfold nonFixedOf
  rw [List.filter_append]
  have h1 : P.min_vars.filter (fun v => !(P.max_vars.contains v)) = P.min_vars := by
    rw [List.filter_eq_self]
    intro a ha
    simp [List.elem_iff, hdisj a ha]
  have h2 : P.max_vars.filter (fun v => !(P.max_vars.contains v)) = [] := by
    rw [List.filter_eq_nil_iff]
    intro a ha
    simp [List.elem_iff, ha]
  rw [h1, h2, List.append_nil]

/-- The quadratic proximal penalty as the spec states it: the proximal
weight times the sum of squared distances of each free variable from its
proximal center (its current value under σ). -/
def proxPenaltySpec (alpha : ℚ) (vs : List VarDecl) (σ : Nat → Option Val) : Expr :=
  Expr.node "mul" [Expr.const (some [alpha]),
    Expr.node "sum" [Expr.node "hstack" (vs.map (fun v =>
      Expr.node "sum_squares" [Expr.node "sub"
        [Expr.var v.vid v.shape v.attrs, Expr.const (σ v.vid)]]))]]

/-- The maximizer sub-problem as the spec states it: maximize the
objective with the minimizer variables frozen at their current values,
minus the proximal penalty on the maximizer variables, over the
constraint half owned by the maximizer. -/
def maxSubProblemSpec (P : SPP) (alpha : ℚ) (σ : Nat → Option Val) : SubProblem :=
  ⟨Sense.maxi,
   Expr.node "sub" [fix_vars_in_expr σ P.objective (idsOf P.min_vars),
     proxPenaltySpec alpha P.max_vars σ],
   P.constraints.filter (fun c => touches c (idsOf P.max_vars))⟩

/-- The minimizer sub-problem as the spec states it: symmetric to the
maximizer one, with the proximal penalty added instead of subtracted. -/
def minSubProblemSpec (P : SPP) (alpha : ℚ) (σ : Nat → Option Val) : SubProblem :=
  ⟨Sense.mini,
   Expr.node "add" [fix_vars_in_expr σ P.objective (idsOf P.max_vars),
     proxPenaltySpec alpha P.min_vars σ],
   P.constraints.filter (fun c => touches c (idsOf P.min_vars))⟩

/-- The variable state carried by a brk or cont iteration outcome. -/
def iterState : IterOut → Option DRState
| IterOut.brk ls => some ls.s
| IterOut.cont ls => some ls.s
| IterOut.fail _ => none
| IterOut.merr => none

/-- C3: in every iteration, the maximizer sub-problem handed to the
solver maximizes the fixed objective minus the proximal penalty on the
maximizer variables centered at their current values, and the minimizer
sub-problem, solved afterwards with the maximizer variables fixed at
their just-updated values, minimizes the fixed objective plus the
analogous penalty on the minimizer variables; after both solves the
iteration carries the two fresh solutions as the new variable state
(at k > 0 provided the aggregate row write does not hit the numpy
shape error of line 279, which instead aborts the iteration). -/
theorem drIteration_subproblems (P : SPP) (solver : Solver) (alpha eps : ℚ)
    (k : Nat) (ls : LoopSt)
    (hdisj : ∀ v ∈ P.min_vars, v ∉ P.max_vars) (yc xc : List Constr)
    (hy : relevantConstraints (idsOf P.min_vars)
      (idsOf (nonFixedOf P P.min_vars)) P.constraints = some yc)
    (hx : relevantConstraints (idsOf P.max_vars)
      (idsOf (nonFixedOf P P.max_vars)) P.constraints = some xc) :
    (solver ls.ctr (maxSubProblemSpec P alpha (assignOf P ls.s)) = none →
      drIteration P solver alpha eps k ls
        = IterOut.fail ⟨ls.s, ls.ctr, maxSubProblemSpec P alpha (assignOf P ls.s)⟩)
    ∧ (∀ nm w, solver ls.ctr (maxSubProblemSpec P alpha (assignOf P ls.s))
          = some (nm, w) →
        (solver (ls.ctr + 1)
            (minSubProblemSpec P alpha (assignOf P ⟨ls.s.minVals, nm.map some⟩))
            = none →
          drIteration P solver alpha eps k ls
            = IterOut.fail ⟨⟨ls.s.minVals, nm.map some⟩, ls.ctr + 1,
                minSubProblemSpec P alpha (assignOf P ⟨ls.s.minVals, nm.map some⟩)⟩)
        ∧ (∀ nmin w2, solver (ls.ctr + 1)
              (minSubProblemSpec P alpha (assignOf P ⟨ls.s.minVals, nm.map some⟩))
              = some (nmin, w2) →
            (k = 0 →
              iterState (drIteration P solver alpha eps k ls)
                = some ⟨nmin.map some, nm.map some⟩)
            ∧ (0 < k →
              broadcastAssign (totalSize P)
                  (aggregateOf
                    (List.zipWith (fun hist nv => hist ++ [nv]) ls.minHist nmin)
                    (List.zipWith (fun hist nv => hist ++ [nv]) ls.maxHist nm))
                ≠ none →
              iterState (drIteration P solver alpha eps k ls)
                = some ⟨nmin.map some, nm.map some⟩)
            ∧ (0 < k →
              broadcastAssign (totalSize P)
                  (aggregateOf
                    (List.zipWith (fun hist nv => hist ++ [nv]) ls.minHist nmin)
                    (List.zipWith (fun hist nv => hist ++ [nv]) ls.maxHist nm))
                = none →
              drIteration P solver alpha eps k ls = IterOut.merr))) := by
  have hycf : yc = P.constraints.filter (fun c => touches c (idsOf P.max_vars)) := by
    have := relevantConstraints_eq_filter (idsOf P.min_vars)
      (idsOf (nonFixedOf P P.min_vars)) P.constraints yc hy
    rw [nonFixedOf_min P hdisj] at this
    exact this
  have hxcf : xc = P.constraints.filter (fun c => touches c (idsOf P.min_vars)) := by
    have := relevantConstraints_eq_filter (idsOf P.max_vars)
      (idsOf (nonFixedOf P P.max_vars)) P.constraints xc hx
    rw [nonFixedOf_max P hdisj] at this
    exact this
  have hmaxspec : ∀ σ : Nat → Option Val, maxSubProblemSpec P alpha σ
      = ⟨Sense.maxi,
         Expr.node "sub" [fix_vars_in_expr σ P.objective (idsOf P.min_vars),
           Expr.node "mul" [Expr.const (some [alpha]),
             Expr.node "sum" [Expr.node "hstack" (P.max_vars.map (fun v =>
               Expr.node "sum_squares" [Expr.node "sub"
                 [Expr.var v.vid v.shape v.attrs, Expr.const (σ v.vid)]]))]]],
         yc⟩ := by
    intro σ
    rw [hycf]
    rfl
  have hminspec : ∀ σ : Nat → Option Val, minSubProblemSpec P alpha σ
      = ⟨Sense.mini,
         Expr.node "add" [fix_vars_in_expr σ P.objective (idsOf P.max_vars),
           Expr.node "mul" [Expr.const (some [alpha]),
             Expr.node "sum" [Expr.node "hstack" (P.min_vars.map (fun v =>
               Expr.node "sum_squares" [Expr.node "sub"
                 [Expr.var v.vid v.shape v.attrs, Expr.const (σ v.vid)]]))]]],
         xc⟩ := by
    intro σ
    rw [hxcf]
    rfl
  refine ⟨?_, ?_⟩
  · intro hfail
    rw [hmaxspec] at hfail ⊢
    unfold drIteration
    rw [fix_vars_min_eq, hy]
    dsimp only
    rw [hfail]
  · intro nm w h1
    rw [hmaxspec] at h1
    constructor
    · intro hfail
      rw [hminspec] at hfail ⊢
      unfold drIteration
      rw [fix_vars_min_eq, hy]
      dsimp only
      rw [h1]
      dsimp only
      rw [fix_vars_max_eq, hx]
      dsimp only
      rw [hfail]
    · intro nmin w2 h2
      rw [hminspec] at h2
      refine ⟨?_, ?_, ?_⟩
      · intro hk0
        subst hk0
        unfold drIteration
        rw [fix_vars_min_eq, hy]
        dsimp only
        rw [h1]
        dsimp only
        rw [fix_vars_max_eq, hx]
        dsimp only
        rw [h2]
        dsimp only
        rfl
      · intro hk0 hbr
        unfold drIteration
        rw [fix_vars_min_eq, hy]
        dsimp only
        rw [h1]
        dsimp only
        rw [fix_vars_max_eq, hx]
        dsimp only
        rw [h2]
        dsimp only
        rw [if_pos hk0]
        have hkne : ¬ (k = 0) := Nat.pos_iff_ne_zero.mp hk0
        simp only [if_neg hkne]
        cases hbro : broadcastAssign (totalSize P)
            (aggregateOf
              (List.zipWith (fun hist nv => hist ++ [nv]) ls.minHist nmin)
              (List.zipWith (fun hist nv => hist ++ [nv]) ls.maxHist nm)) with
        | none => exact absurd hbro hbr
        | some row =>
          dsimp only
          by_cases hk1 : k > 1
          · rw [if_pos hk1]
            split <;> rfl
          · rw [if_neg hk1]
            rfl
      · intro hk0 hbr
        unfold drIteration
        rw [fix_vars_min_eq, hy]
        dsimp only
        rw [h1]
        dsimp only
        rw [fix_vars_max_eq, hx]
        dsimp only
        rw [h2]
        dsimp only
        rw [if_pos hk0]
        have hkne : ¬ (k = 0) := Nat.pos_iff_ne_zero.mp hk0
        simp only [if_neg hkne]
        rw [hbr]

/-- Witness for C3 at a concrete iteration of the two-variable problem. -/
theorem drIteration_subproblems_witness :
    iterState (drIteration sppW solW 2 0 0 ⟨stW, [], [], [], 2⟩)
      = some ⟨[some [3]], [some [3]]⟩ := by
  have H := drIteration_subproblems sppW solW 2 0 0 ⟨stW, [], [], [], 2⟩
    (by decide) [Constr.mk 1 [1]] [Constr.mk 0 [0]] (by decide) (by decide)
  exact (((H.2 [[3]] 0 rfl).2 [[3]] 0 rfl).1) rfl

/-! ### Abort behaviour on non-optimal sub-solves (C4) -/

/-- A failing iteration is attributed to an actual failing solver call,
and its recorded state holds only the updates of the calls that
succeeded: the entering state if the maximizer solve failed, or the
entering state with only the maximizer values updated if the minimizer
solve failed. -/
theorem drIteration_fail_char (P : SPP) (solver : Solver) (alpha eps : ℚ)
    (k : Nat) (ls : LoopSt) (info : AbortInfo)
    (h : drIteration P solver alpha eps k ls = IterOut.fail info) :
    solver info.callIdx info.failedProb = none
    ∧ ((info.state = ls.s ∧ info.callIdx = ls.ctr)
      ∨ ∃ nm w, info.state = ⟨ls.s.minVals, nm.map some⟩
          ∧ info.callIdx = ls.ctr + 1
          ∧ ∃ p, solver ls.ctr p = some (nm, w)) := by
  unfold drIteration at h
  cases h1 : fix_vars P P.min_vars (assignOf P ls.s) with
  | none => rw [h1] at h; exact absurd h (by simp)
  | some t1 =>
    obtain ⟨fobj, fcons⟩ := t1
    rw [h1] at h
    dsimp only at h
    cases h2 : solver ls.ctr ⟨Sense.maxi, _, fcons⟩ with
    | none =>
      rw [h2] at h
      dsimp only at h
      cases h
      exact ⟨h2, Or.inl ⟨rfl, rfl⟩⟩
    | some t2 =>
      obtain ⟨nm, w⟩ := t2
      rw [h2] at h
      dsimp only at h
      cases h3 : fix_vars P P.max_vars (assignOf P ⟨ls.s.minVals, nm.map some⟩) with
      | none => rw [h3] at h; exact absurd h (by simp)
      | some t3 =>
        obtain ⟨gobj, gcons⟩ := t3
        rw [h3] at h
        dsimp only at h
        cases h4 : solver (ls.ctr + 1) ⟨Sense.mini, _, gcons⟩ with
        | none =>
          rw [h4] at h
          dsimp only at h
          cases h
          exact ⟨h4, Or.inr ⟨nm, w, rfl, rfl, _, h2⟩⟩
        | some t4 =>
          obtain ⟨nmin, w2⟩ := t4
          rw [h4] at h
          dsimp only at h
          exfalso
          repeat' split at h
          all_goals exact absurd h (by simp)

/-- A failing loop run is attributed to an actual failing solver call. -/
theorem drLoop_fail_src (P : SPP) (solver : Solver) (alpha eps : ℚ) :
    ∀ fuel k ls info, drLoop P solver alpha eps k fuel ls = LoopResult.fail info →
    solver info.callIdx info.failedProb = none := by
  intro fuel
  induction fuel with
  | zero =>
    intro k ls info h
    rw [drLoop] at h
    exact absurd h (by simp)
  | succ fuel ih =>
    intro k ls info h
    rw [drLoop] at h
    cases hit : drIteration P solver alpha eps k ls with
    | fail i =>
      rw [hit] at h
      dsimp only at h
      cases h
      exact (drIteration_fail_char P solver alpha eps k ls info hit).1
    | merr => rw [hit] at h; exact absurd h (by simp)
    | brk ls1 => rw [hit] at h; exact absurd h (by simp)
    | cont ls1 =>
      rw [hit] at h
      exact ih (k + 1) ls1 info h

/-- A failing initialization is attributed to an actual failing call. -/
theorem initVariables_fail_src (P : SPP) (solver : Solver) (ctr : Nat)
    (s0 : DRState) (info : AbortInfo)
    (h : initVariables P solver ctr s0 = InitOut.fail info) :
    solver info.callIdx info.failedProb = none := by
  unfold initVariables at h
  cases h1 : fix_vars P P.max_vars (assignOf P s0) with
  | none => rw [h1] at h; exact absurd h (by simp)
  | some t1 =>
    obtain ⟨unused1, minCons⟩ := t1
    rw [h1] at h
    dsimp only at h
    cases h2 : solver ctr ⟨Sense.mini, _, minCons⟩ with
    | none =>
      rw [h2] at h
      dsimp only at h
      cases h
      exact h2
    | some t2 =>
      obtain ⟨newMin, w⟩ := t2
      rw [h2] at h
      dsimp only at h
      cases h3 : fix_vars P P.min_vars
          (assignOf P ⟨newMin.map some, s0.maxVals⟩) with
      | none => rw [h3] at h; exact absurd h (by simp)
      | some t3 =>
        obtain ⟨unused2, maxCons⟩ := t3
        rw [h3] at h
        dsimp only at h
        cases h4 : solver (ctr + 1) ⟨Sense.maxi, _, maxCons⟩ with
        | none =>
          rw [h4] at h
          dsimp only at h
          cases h
          exact h4
        | some t4 =>
          obtain ⟨newMax, w2⟩ := t4
          rw [h4] at h
          dsimp only at h
          exact absurd h (by simp)

/-- A failing validation is attributed to an actual failing call. -/
theorem validateSaddle_fail_src (P : SPP) (solver : Solver) (ctr : Nat)
    (s : DRState) (info : AbortInfo)
    (h : validateSaddle P solver ctr s = VOut.fail info) :
    solver info.callIdx info.failedProb = none := by
  unfold validateSaddle at h
  cases h1 : fix_vars P P.min_vars (assignOf P s) with
  | none => rw [h1] at h; exact absurd h (by simp)
  | some t1 =>
    obtain ⟨mobj, mcons⟩ := t1
    rw [h1] at h
    dsimp only at h
    cases h2 : solver ctr ⟨Sense.maxi, mobj, mcons⟩ with
    | none =>
      rw [h2] at h
      dsimp only at h
      cases h
      exact h2
    | some t2 =>
      obtain ⟨newMax, vMax⟩ := t2
      rw [h2] at h
      dsimp only at h
      cases h3 : fix_vars P P.max_vars (assignOf P ⟨s.minVals, s.maxVals⟩) with
      | none => rw [h3] at h; exact absurd h (by simp)
      | some t3 =>
        obtain ⟨nobj, ncons⟩ := t3
        rw [h3] at h
        dsimp only at h
        cases h4 : solver (ctr + 1) ⟨Sense.mini, nobj, ncons⟩ with
        | none =>
          rw [h4] at h
          dsimp only at h
          cases h
          exact h4
        | some t4 =>
          obtain ⟨newMin, vMin⟩ := t4
          rw [h4] at h
          dsimp only at h
          exact absurd h (by simp)

/-- A solver-status abort of the whole solve is attributed to an actual
failing solver call. -/
theorem solveDR_abort_src (P : SPP) (solver : Solver) (maxIters : Nat)
    (alpha eps : ℚ) (s0 : DRState) (info : AbortInfo)
    (h : solveDR P solver maxIters alpha eps s0 = DRResult.solverFail info) :
    solver info.callIdx info.failedProb = none := by
  unfold solveDR at h
  cases hi : initVariables P solver 0 s0 with
  | fail i =>
    rw [hi] at h
    dsimp only at h
    cases h
    exact initVariables_fail_src P solver 0 s0 info hi
  | merr => rw [hi] at h; exact absurd h (by simp)
  | ok s1 ctr =>
    rw [hi] at h
    dsimp only at h
    by_cases hm0 : maxIters = 0
    · rw [if_pos hm0] at h
      exact absurd h (by simp)
    · rw [if_neg hm0] at h
      cases hl : drLoop P solver 2 eps 0 maxIters
          ⟨s1, [], [],
           List.replicate (maxIters - 1) (List.replicate (totalSize P) 0), ctr⟩ with
      | fail i =>
        rw [hl] at h
        dsimp only at h
        cases h
        exact drLoop_fail_src P solver 2 eps maxIters 0 _ info hl
      | merr => rw [hl] at h; exact absurd h (by simp)
      | done ls =>
        rw [hl] at h
        dsimp only at h
        cases hv : validateSaddle P solver ls.ctr
            ⟨ls.minHist.map (fun hist => some (histMean hist)),
             ls.maxHist.map (fun hist => some (histMean hist))⟩ with
        | fail i =>
          rw [hv] at h
          dsimp only at h
          cases h
          exact validateSaddle_fail_src P solver ls.ctr _ info hv
        | merr => rw [hv] at h; exact absurd h (by simp)
        | ok r => rw [hv] at h; exact absurd h (by simp)

/-- C4: whenever any sub-solve inside the iterative path (initialization
feasibility solve, either best-response step, or a validation solve)
returns a non-optimal status, the solve raises immediately: the whole
outer loop aborts with the failing call recorded, there is no retry and
no fallback, and the recorded variable state holds only the updates of
the calls that succeeded.  In particular a solver that always reports
non-optimal makes the solve abort at the very first (initialization)
call, with the variable state untouched. -/
theorem solveDR_aborts_on_nonoptimal (P : SPP) (solver : Solver)
    (maxIters : Nat) (alpha eps : ℚ) (s0 : DRState) (minCons : List Constr)
    (hy : relevantConstraints (idsOf P.max_vars)
      (idsOf (nonFixedOf P P.max_vars)) P.constraints = some minCons) :
    (∀ info, solveDR P solver maxIters alpha eps s0 = DRResult.solverFail info →
      solver info.callIdx info.failedProb = none)
    ∧ (∀ k ls info, drIteration P solver alpha eps k ls = IterOut.fail info →
        solver info.callIdx info.failedProb = none
        ∧ ((info.state = ls.s ∧ info.callIdx = ls.ctr)
          ∨ ∃ nm w, info.state = ⟨ls.s.minVals, nm.map some⟩
              ∧ info.callIdx = ls.ctr + 1
              ∧ ∃ p, solver ls.ctr p = some (nm, w)))
    ∧ ((∀ i p, solver i p = none) →
        solveDR P solver maxIters alpha eps s0
          = DRResult.solverFail ⟨s0, 0, initProb Sense.mini P.min_vars minCons⟩) := by
  refine ⟨?_, ?_, ?_⟩
  · intro info h
    exact solveDR_abort_src P solver maxIters alpha eps s0 info h
  · intro k ls info h
    exact drIteration_fail_char P solver alpha eps k ls info h
  · intro hall
    unfold solveDR initVariables
    rw [fix_vars_max_eq, hy]
    dsimp only
    rw [hall 0 _]
    rfl

/-- Witness for C4: with an always-non-optimal solver the whole solve
aborts at the very first initialization call with the state untouched. -/
theorem solveDR_aborts_on_nonoptimal_witness :
    solveDR sppW (fun _ _ => none) 5 1 0 stW
      = DRResult.solverFail
          ⟨stW, 0, initProb Sense.mini sppW.min_vars [Constr.mk 0 [0]]⟩ :=
  (solveDR_aborts_on_nonoptimal sppW (fun _ _ => none) 5 1 0 stW
    [Constr.mk 0 [0]] (by decide)).2.2 (fun _ _ => rfl)

/-! ### Arithmetic of the Cesàro averages and the stopping test (C2) -/

/-- Appending one snapshot to each history of a uniformly-built history
list. -/
theorem zipWith_append_singleton (f : Val → List Val) (l : List Val) :
    List.zipWith (fun hist nv => hist ++ [nv]) (l.map f) l
      = l.map (fun v => f v ++ [v]) := by
  induction l with
  | nil => simp
  | cons v l ih => simp [ih]

/-- Componentwise (v + v) / 2 = v. -/
theorem vecAdd_self_map_div_two (v : Val) :
    (vecAdd v v).map (fun x => x / (2 : ℚ)) = v := by
  induction v with
  | nil => rfl
  | cons x t ih =>
    show ((x + x) / 2) :: (vecAdd t t).map (fun y => y / (2 : ℚ)) = x :: t
    rw [ih, add_self_div_two]

/-- Componentwise ((v + v) + v) / 3 = v. -/
theorem vecAdd_self_self_map_div_three (v : Val) :
    (vecAdd (vecAdd v v) v).map (fun x => x / (3 : ℚ)) = v := by
  induction v with
  | nil => rfl
  | cons x t ih =>
    show ((x + x + x) / 3) :: (vecAdd (vecAdd t t) t).map (fun y => y / (3 : ℚ)) = x :: t
    rw [ih]
    have h3 : x + x + x = 3 * x := by ring
    rw [h3, mul_div_cancel_left₀ x (by norm_num : (3 : ℚ) ≠ 0)]

/-- The Cesàro average of a twice-repeated snapshot is the snapshot. -/
theorem histMean_two (v : Val) : histMean [v, v] = v := by
  have h : histMean [v, v]
      = (vecAdd v v).map (fun x => x / (((1 : ℕ) : ℚ) + 1)) := rfl
  rw [h]
  norm_num [vecAdd_self_map_div_two]

/-- The Cesàro average of a thrice-repeated snapshot is the snapshot. -/
theorem histMean_three (v : Val) : histMean [v, v, v] = v := by
  have h : histMean [v, v, v]
      = (vecAdd (vecAdd v v) v).map (fun x => x / (((2 : ℕ) : ℚ) + 1)) := rfl
  rw [h]
  norm_num [vecAdd_self_self_map_div_three]

/-- The infinity norm of the difference of an aggregate point with itself
is zero. -/
theorem infNormSub_self (a : List ℚ) : infNormSub a a = 0 := by
  unfold infNormSub
  induction a with
  | nil => rfl
  | cons x t ih =>
    show max |x - x| (List.foldr max 0 (List.zipWith (fun x y => |x - y|) t t)) = 0
    rw [ih, sub_self, abs_zero, max_self]

/-- When every history in both lists averages back to its variable's
snapshot, the aggregate point is the concatenation of the snapshots. -/
theorem aggregateOf_of_histMean_id (n m : List Val) (f : Val → List Val)
    (hf : ∀ v, histMean (f v) = v) :
    aggregateOf (n.map f) (m.map f) = (n ++ m).flatten := by
  unfold aggregateOf
  rw [← List.map_append, List.map_map]
  have h : (n ++ m).map (histMean ∘ f) = (n ++ m).map id :=
    List.map_congr_left (fun a _ => by simp [Function.comp, hf a])
  rw [h, List.map_id]

/-- Appending one entry to histories of uniform length gives histories of
uniform length. -/
theorem length_mem_zipWith_append (l1 : List (List Val)) (l2 : List Val) (len : Nat)
    (hlen : ∀ h ∈ l1, h.length = len) :
    ∀ h ∈ List.zipWith (fun hist nv => hist ++ [nv]) l1 l2, h.length = len + 1 := by
  induction l1 generalizing l2 with
  | nil => simp
  | cons a l1 ih =>
    cases l2 with
    | nil => simp
    | cons b l2 =>
      intro h hmem
      rcases List.mem_cons.mp hmem with rfl | hmem
      · simp [hlen a (by simp)]
      · exact ih l2 (fun x hx => hlen x (by simp [hx])) h hmem

/-- A row assignment of exactly the row width never broadcasts. -/
theorem broadcastAssign_of_eq (w : Nat) (cur : List ℚ) (h : cur.length = w) :
    broadcastAssign w cur = some cur := by
  unfold broadcastAssign
  rw [if_pos h]

/-- One unfolding of the iteration loop. -/
theorem drLoop_succ (P : SPP) (solver : Solver) (alpha eps : ℚ) (k fuel : Nat)
    (ls : LoopSt) :
    drLoop P solver alpha eps k (fuel + 1) ls
      = match drIteration P solver alpha eps k ls with
        | IterOut.fail info => LoopResult.fail info
        | IterOut.merr => LoopResult.merr
        | IterOut.brk ls1 => LoopResult.done ls1
        | IterOut.cont ls1 => drLoop P solver alpha eps (k + 1) fuel ls1 := rfl

/-- Iteration k = 0 under a stationary solver: whatever the incoming
state, the maximizer step writes m, the minimizer step writes n, and the
histories are freshly created. -/
theorem drIteration_stationary_k0 (P : SPP) (solver : Solver) (eps : ℚ)
    (m n : List Val) (w1 w2 : ℚ) (yc xc : List Constr)
    (hy : relevantConstraints (idsOf P.min_vars)
      (idsOf (nonFixedOf P P.min_vars)) P.constraints = some yc)
    (hx : relevantConstraints (idsOf P.max_vars)
      (idsOf (nonFixedOf P P.max_vars)) P.constraints = some xc)
    (hsolMax : ∀ i o c, solver i ⟨Sense.maxi, o, c⟩ = some (m, w1))
    (hsolMin : ∀ i o c, solver i ⟨Sense.mini, o, c⟩ = some (n, w2))
    (ls : LoopSt) :
    drIteration P solver 2 eps 0 ls
      = IterOut.cont ⟨⟨n.map some, m.map some⟩, n.map (fun v => [v]),
          m.map (fun v => [v]), ls.plot, ls.ctr + 2⟩ := by
  unfold drIteration
  rw [fix_vars_min_eq, hy]
  dsimp only
  rw [hsolMax]
  dsimp only
  rw [fix_vars_max_eq, hx]
  dsimp only
  rw [hsolMin]
  rfl

/-- Iteration k = 1 under a stationary solver, entering with the
one-entry histories of iteration 0: both histories get a second entry,
the first aggregate point - whose width matches the plot row width - is
recorded, and no stopping test runs yet. -/
theorem drIteration_stationary_k1 (P : SPP) (solver : Solver) (eps : ℚ)
    (m n : List Val) (w1 w2 : ℚ) (yc xc : List Constr)
    (hy : relevantConstraints (idsOf P.min_vars)
      (idsOf (nonFixedOf P P.min_vars)) P.constraints = some yc)
    (hx : relevantConstraints (idsOf P.max_vars)
      (idsOf (nonFixedOf P P.max_vars)) P.constraints = some xc)
    (hsolMax : ∀ i o c, solver i ⟨Sense.maxi, o, c⟩ = some (m, w1))
    (hsolMin : ∀ i o c, solver i ⟨Sense.mini, o, c⟩ = some (n, w2))
    (hwidth : ((n ++ m).flatten).length = totalSize P)
    (s : DRState) (plot : List (List ℚ)) (ctr : Nat) :
    drIteration P solver 2 eps 1
      ⟨s, n.map (fun v => [v]), m.map (fun v => [v]), plot, ctr⟩
      = IterOut.cont ⟨⟨n.map some, m.map some⟩,
          n.map (fun v => [v, v]), m.map (fun v => [v, v]),
          plot.set 0 ((n ++ m).flatten), ctr + 2⟩ := by
  unfold drIteration
  rw [fix_vars_min_eq, hy]
  dsimp only
  rw [hsolMax]
  dsimp only
  rw [fix_vars_max_eq, hx]
  dsimp only
  rw [hsolMin]
  dsimp only
  simp only [if_neg (by decide : ¬(1 : ℕ) = 0)]
  rw [zipWith_append_singleton, zipWith_append_singleton]
  rw [show (fun v : Val => [v] ++ [v]) = (fun v : Val => [v, v]) from rfl]
  rw [aggregateOf_of_histMean_id n m (fun v => [v, v]) (fun v => histMean_two v)]
  rw [broadcastAssign_of_eq (totalSize P) ((n ++ m).flatten) hwidth]
  rfl

/-- Iteration k = 2 under a stationary solver: the aggregate point equals
the previously recorded one, so the stopping test fires and the loop
breaks. -/
theorem drIteration_stationary_k2 (P : SPP) (solver : Solver) (eps : ℚ)
    (m n : List Val) (w1 w2 : ℚ) (yc xc : List Constr)
    (hy : relevantConstraints (idsOf P.min_vars)
      (idsOf (nonFixedOf P P.min_vars)) P.constraints = some yc)
    (hx : relevantConstraints (idsOf P.max_vars)
      (idsOf (nonFixedOf P P.max_vars)) P.constraints = some xc)
    (hsolMax : ∀ i o c, solver i ⟨Sense.maxi, o, c⟩ = some (m, w1))
    (hsolMin : ∀ i o c, solver i ⟨Sense.mini, o, c⟩ = some (n, w2))
    (hwidth : ((n ++ m).flatten).length = totalSize P)
    (heps : 0 ≤ eps) (s : DRState) (plot : List (List ℚ)) (ctr : Nat)
    (hplot : plot[0]? = some ((n ++ m).flatten)) :
    drIteration P solver 2 eps 2
      ⟨s, n.map (fun v => [v, v]), m.map (fun v => [v, v]), plot, ctr⟩
      = IterOut.brk ⟨⟨n.map some, m.map some⟩,
          n.map (fun v => [v, v, v]), m.map (fun v => [v, v, v]),
          plot.set 1 ((n ++ m).flatten), ctr + 2⟩ := by
  unfold drIteration
  rw [fix_vars_min_eq, hy]
  dsimp only
  rw [hsolMax]
  dsimp only
  rw [fix_vars_max_eq, hx]
  dsimp only
  rw [hsolMin]
  dsimp only
  rw [zipWith_append_singleton, zipWith_append_singleton]
  simp only [if_neg (by omega : ¬(2 : ℕ) = 0)]
  rw [aggregateOf_of_histMean_id n m (fun v => [v, v] ++ [v])
    (fun v => histMean_three v)]
  rw [broadcastAssign_of_eq (totalSize P) ((n ++ m).flatten) hwidth]
  dsimp only
  have hread : (((plot.set (2 - 1) ((n ++ m).flatten))[2 - 2]?).getD [])
      = (n ++ m).flatten := by
    rw [show (2 : ℕ) - 1 = 1 from rfl, show (2 : ℕ) - 2 = 0 from rfl]
    rw [List.getElem?_set_ne (by omega : (1 : ℕ) ≠ 0), hplot]
    rfl
  have hcond : infNormSub (((plot.set (2 - 1) ((n ++ m).flatten))[2 - 2]?).getD [])
      ((n ++ m).flatten) ≤ eps := by
    rw [hread, infNormSub_self]
    exact heps
  rw [if_pos hcond]
  rfl

/-- Any iteration at k = 0 either aborts or continues with fresh
one-entry histories; it never breaks. -/
theorem drIteration_k0_shape (P : SPP) (solver : Solver) (alpha eps : ℚ)
    (ls : LoopSt) (out : IterOut)
    (h : drIteration P solver alpha eps 0 ls = out) :
    out = IterOut.merr ∨ (∃ info, out = IterOut.fail info)
    ∨ ∃ (nm nmin : List Val), out = IterOut.cont ⟨⟨nmin.map some, nm.map some⟩,
        nmin.map (fun v => [v]), nm.map (fun v => [v]), ls.plot, ls.ctr + 2⟩ := by
  unfold drIteration at h
  cases h1 : fix_vars P P.min_vars (assignOf P ls.s) with
  | none => rw [h1] at h; exact Or.inl h.symm
  | some t1 =>
    obtain ⟨fobj, fcons⟩ := t1
    rw [h1] at h
    dsimp only at h
    cases h2 : solver ls.ctr ⟨Sense.maxi, _, fcons⟩ with
    | none => rw [h2] at h; exact Or.inr (Or.inl ⟨_, h.symm⟩)
    | some t2 =>
      obtain ⟨nm, w⟩ := t2
      rw [h2] at h
      dsimp only at h
      cases h3 : fix_vars P P.max_vars (assignOf P ⟨ls.s.minVals, nm.map some⟩) with
      | none => rw [h3] at h; exact Or.inl h.symm
      | some t3 =>
        obtain ⟨gobj, gcons⟩ := t3
        rw [h3] at h
        dsimp only at h
        cases h4 : solver (ls.ctr + 1) ⟨Sense.mini, _, gcons⟩ with
        | none => rw [h4] at h; exact Or.inr (Or.inl ⟨_, h.symm⟩)
        | some t4 =>
          obtain ⟨nmin, w2⟩ := t4
          rw [h4] at h
          dsimp only at h
          refine Or.inr (Or.inr ⟨nm, nmin, ?_⟩)
          rw [← h]
          rfl

/-- Any iteration at k = 1 either aborts (on a failed solve, a fix_vars
error, or the numpy shape error of the plot-row write) or continues,
appending one entry to each history and recording the (possibly
broadcast) aggregate row; it never breaks. -/
theorem drIteration_k1_shape (P : SPP) (solver : Solver) (alpha eps : ℚ)
    (ls : LoopSt) (out : IterOut)
    (h : drIteration P solver alpha eps 1 ls = out) :
    out = IterOut.merr ∨ (∃ info, out = IterOut.fail info)
    ∨ ∃ (nm nmin : List Val) (row : List ℚ),
        broadcastAssign (totalSize P) (aggregateOf
          (List.zipWith (fun hist nv => hist ++ [nv]) ls.minHist nmin)
          (List.zipWith (fun hist nv => hist ++ [nv]) ls.maxHist nm)) = some row
        ∧ out = IterOut.cont ⟨⟨nmin.map some, nm.map some⟩,
            List.zipWith (fun hist nv => hist ++ [nv]) ls.minHist nmin,
            List.zipWith (fun hist nv => hist ++ [nv]) ls.maxHist nm,
            ls.plot.set 0 row, ls.ctr + 2⟩ := by
  unfold drIteration at h
  cases h1 : fix_vars P P.min_vars (assignOf P ls.s) with
  | none => rw [h1] at h; exact Or.inl h.symm
  | some t1 =>
    obtain ⟨fobj, fcons⟩ := t1
    rw [h1] at h
    dsimp only at h
    cases h2 : solver ls.ctr ⟨Sense.maxi, _, fcons⟩ with
    | none => rw [h2] at h; exact Or.inr (Or.inl ⟨_, h.symm⟩)
    | some t2 =>
      obtain ⟨nm, w⟩ := t2
      rw [h2] at h
      dsimp only at h
      cases h3 : fix_vars P P.max_vars (assignOf P ⟨ls.s.minVals, nm.map some⟩) with
      | none => rw [h3] at h; exact Or.inl h.symm
      | some t3 =>
        obtain ⟨gobj, gcons⟩ := t3
        rw [h3] at h
        dsimp only at h
        cases h4 : solver (ls.ctr + 1) ⟨Sense.mini, _, gcons⟩ with
        | none => rw [h4] at h; exact Or.inr (Or.inl ⟨_, h.symm⟩)
        | some t4 =>
          obtain ⟨nmin, w2⟩ := t4
          rw [h4] at h
          dsimp only at h
          rw [if_pos (by decide : (1 : ℕ) > 0)] at h
          simp only [if_neg (by decide : ¬(1 : ℕ) = 0)] at h
          cases hbro : broadcastAssign (totalSize P) (aggregateOf
              (List.zipWith (fun hist nv => hist ++ [nv]) ls.minHist nmin)
              (List.zipWith (fun hist nv => hist ++ [nv]) ls.maxHist nm)) with
          | none =>
            rw [hbro] at h
            dsimp only at h
            exact Or.inl h.symm
          | some row =>
            rw [hbro] at h
            dsimp only at h
            refine Or.inr (Or.inr ⟨nm, nmin, row, hbro, ?_⟩)
            rw [← h]
            rfl

/-- C2 amended: the convergence test runs only once at least two
aggregate points exist (so with a budget of one or two iterations the
loop never stops early and every history has exactly budget-many
entries), it compares the infinity norm of the difference between the
current and the previous aggregate point against eps, and for a problem
whose best response is stationary from iteration 0 - provided the
aggregate width equals the plot row width, which is sized by the
referenced variables only (problem.py 233) - the loop stops as converged
at k = 2: three iterations are recorded and the solve succeeds with all
variables at their (constant) Cesàro averages.  Without the width
proviso the k = 1 row write raises ValueError instead (line 279). -/
theorem solveDR_stops_by_k2_when_stationary (P : SPP) (solver : Solver)
    (maxIters : Nat) (alpha eps : ℚ) (s0 : DRState) (m n : List Val)
    (w1 w2 : ℚ) (yc xc : List Constr)
    (hy : relevantConstraints (idsOf P.min_vars)
      (idsOf (nonFixedOf P P.min_vars)) P.constraints = some yc)
    (hx : relevantConstraints (idsOf P.max_vars)
      (idsOf (nonFixedOf P P.max_vars)) P.constraints = some xc)
    (hsolMax : ∀ i o c, solver i ⟨Sense.maxi, o, c⟩ = some (m, w1))
    (hsolMin : ∀ i o c, solver i ⟨Sense.mini, o, c⟩ = some (n, w2))
    (hwidth : ((n ++ m).flatten).length = totalSize P)
    (hiters : 3 ≤ maxIters) (heps : 0 ≤ eps) :
    solveDR P solver maxIters alpha eps s0
      = DRResult.ok ⟨⟨n.map some, m.map some⟩,
          n.map (fun v => [v, v, v]), m.map (fun v => [v, v, v]),
          |w1 - w2|, w1, w2⟩
    ∧ (∀ (solver2 : Solver) (mi : Nat) (s02 : DRState) (out : FinalOut),
        (mi = 1 ∨ mi = 2) →
        solveDR P solver2 mi alpha eps s02 = DRResult.ok out →
        (∀ h ∈ out.minHist, h.length = mi) ∧ (∀ h ∈ out.maxHist, h.length = mi)) := by
  constructor
  · obtain ⟨j, rfl⟩ : ∃ j, maxIters = j + 3 := ⟨maxIters - 3, by omega⟩
    have hinit : initVariables P solver 0 s0
        = InitOut.ok ⟨n.map some, m.map some⟩ 2 := by
      unfold initVariables
      rw [fix_vars_max_eq, hx]
      dsimp only
      rw [hsolMin]
      dsimp only
      rw [fix_vars_min_eq, hy]
      dsimp only
      rw [hsolMax]
    have hmapmin : (n.map (fun v => [v, v, v])).map
        (fun hist => some (histMean hist)) = n.map some := by
      rw [List.map_map]
      exact List.map_congr_left (fun v _ => by simp [Function.comp, histMean_three v])
    have hmapmax : (m.map (fun v => [v, v, v])).map
        (fun hist => some (histMean hist)) = m.map some := by
      rw [List.map_map]
      exact List.map_congr_left (fun v _ => by simp [Function.comp, histMean_three v])
    have hval : validateSaddle P solver 8 ⟨n.map some, m.map some⟩
        = VOut.ok ⟨⟨n.map some, m.map some⟩, |w1 - w2|, w1, w2⟩ := by
      unfold validateSaddle
      rw [fix_vars_min_eq, hy]
      dsimp only
      rw [hsolMax]
      dsimp only
      rw [fix_vars_max_eq, hx]
      dsimp only
      rw [hsolMin]
    have hloop : drLoop P solver 2 eps 0 (j + 3)
        ⟨⟨n.map some, m.map some⟩, [], [],
         List.replicate (j + 3 - 1) (List.replicate (totalSize P) 0), 2⟩
        = LoopResult.done ⟨⟨n.map some, m.map some⟩,
            n.map (fun v => [v, v, v]), m.map (fun v => [v, v, v]),
            ((List.replicate (j + 3 - 1) (List.replicate (totalSize P) 0)).set 0
              ((n ++ m).flatten)).set 1 ((n ++ m).flatten), 8⟩ := by
      rw [show j + 3 = (j + 2) + 1 from rfl, drLoop_succ]
      rw [drIteration_stationary_k0 P solver eps m n w1 w2 yc xc hy hx hsolMax hsolMin]
      dsimp only
      rw [show j + 2 = (j + 1) + 1 from rfl, drLoop_succ]
      rw [drIteration_stationary_k1 P solver eps m n w1 w2 yc xc hy hx hsolMax hsolMin
        hwidth]
      dsimp only
      rw [drLoop_succ]
      rw [drIteration_stationary_k2 P solver eps m n w1 w2 yc xc hy hx hsolMax hsolMin
        hwidth heps _ _ 6 (List.getElem?_set_self (by simp))]
    unfold solveDR
    rw [hinit]
    dsimp only
    rw [if_neg (by omega : ¬(j + 3 = 0)), hloop]
    dsimp only
    rw [hmapmin, hmapmax, hval]
  · intro solver2 mi s02 out hmi hok
    unfold solveDR at hok
    cases hi : initVariables P solver2 0 s02 with
    | fail info => rw [hi] at hok; exact absurd hok (by simp)
    | merr => rw [hi] at hok; exact absurd hok (by simp)
    | ok s1 ctr =>
      rw [hi] at hok
      dsimp only at hok
      rcases hmi with rfl | rfl
      · rw [if_neg one_ne_zero] at hok
        rw [show (1 : ℕ) = 0 + 1 from rfl, drLoop_succ] at hok
        cases hit : drIteration P solver2 2 eps 0
            ⟨s1, [], [],
             List.replicate (0 + 1 - 1) (List.replicate (totalSize P) 0), ctr⟩ with
        | fail i => rw [hit] at hok; exact absurd hok (by simp)
        | merr => rw [hit] at hok; exact absurd hok (by simp)
        | brk l =>
          rcases drIteration_k0_shape P solver2 2 eps _ _ hit with h | ⟨info, h⟩ | ⟨nm, nmin, h⟩
          all_goals exact absurd h (by simp)
        | cont l =>
          rcases drIteration_k0_shape P solver2 2 eps _ _ hit with h | ⟨info, h⟩ | ⟨nm, nmin, h⟩
          · exact absurd h (by simp)
          · exact absurd h (by simp)
          · rw [hit] at hok
            dsimp only at hok
            rw [show drLoop P solver2 2 eps 1 0 l = LoopResult.done l from rfl] at hok
            dsimp only at hok
            cases hv : validateSaddle P solver2 l.ctr
                ⟨l.minHist.map (fun hist => some (histMean hist)),
                 l.maxHist.map (fun hist => some (histMean hist))⟩ with
            | fail i => rw [hv] at hok; exact absurd hok (by simp)
            | merr => rw [hv] at hok; exact absurd hok (by simp)
            | ok r =>
              rw [hv] at hok
              dsimp only at hok
              cases hok
              injection h with h2
              have hlmin : l.minHist = nmin.map (fun v => [v]) := by rw [h2]
              have hlmax : l.maxHist = nm.map (fun v => [v]) := by rw [h2]
              constructor
              · intro hh hmem
                rw [show (FinalOut.mk r.state l.minHist l.maxHist r.gap
                    r.maxObjVal r.minObjVal).minHist = l.minHist from rfl] at hmem
                rw [hlmin] at hmem
                simp only [List.mem_map] at hmem
                obtain ⟨v, -, rfl⟩ := hmem
                rfl
              · intro hh hmem
                rw [show (FinalOut.mk r.state l.minHist l.maxHist r.gap
                    r.maxObjVal r.minObjVal).maxHist = l.maxHist from rfl] at hmem
                rw [hlmax] at hmem
                simp only [List.mem_map] at hmem
                obtain ⟨v, -, rfl⟩ := hmem
                rfl
      · rw [if_neg (by omega : ¬(2 : ℕ) = 0)] at hok
        rw [show (2 : ℕ) = (0 + 1) + 1 from rfl, drLoop_succ] at hok
        cases hit : drIteration P solver2 2 eps 0
            ⟨s1, [], [],
             List.replicate ((0 + 1) + 1 - 1) (List.replicate (totalSize P) 0), ctr⟩ with
        | fail i => rw [hit] at hok; exact absurd hok (by simp)
        | merr => rw [hit] at hok; exact absurd hok (by simp)
        | brk l =>
          rcases drIteration_k0_shape P solver2 2 eps _ _ hit with h | ⟨info, h⟩ | ⟨nm, nmin, h⟩
          all_goals exact absurd h (by simp)
        | cont l =>
          rcases drIteration_k0_shape P solver2 2 eps _ _ hit with h | ⟨info, h⟩ | ⟨nm, nmin, h⟩
          · exact absurd h (by simp)
          · exact absurd h (by simp)
          · rw [hit] at hok
            dsimp only at hok
            rw [drLoop_succ] at hok
            cases hit2 : drIteration P solver2 2 eps 1 l with
            | fail i => rw [hit2] at hok; exact absurd hok (by simp)
            | merr => rw [hit2] at hok; exact absurd hok (by simp)
            | brk l2 =>
              rcases drIteration_k1_shape P solver2 2 eps _ _ hit2 with
                h2 | ⟨info, h2⟩ | ⟨nm2, nmin2, row2, hbro2, h2⟩
              all_goals exact absurd h2 (by simp)
            | cont l2 =>
              rcases drIteration_k1_shape P solver2 2 eps _ _ hit2 with
                h2 | ⟨info, h2⟩ | ⟨nm2, nmin2, row2, hbro2, h2⟩
              · exact absurd h2 (by simp)
              · exact absurd h2 (by simp)
              · rw [hit2] at hok
                dsimp only at hok
                rw [show drLoop P solver2 2 eps 2 0 l2 = LoopResult.done l2 from rfl] at hok
                dsimp only at hok
                cases hv : validateSaddle P solver2 l2.ctr
                    ⟨l2.minHist.map (fun hist => some (histMean hist)),
                     l2.maxHist.map (fun hist => some (histMean hist))⟩ with
                | fail i => rw [hv] at hok; exact absurd hok (by simp)
                | merr => rw [hv] at hok; exact absurd hok (by simp)
                | ok r =>
                  rw [hv] at hok
                  dsimp only at hok
                  cases hok
                  have hlmin : l.minHist = nmin.map (fun v => [v]) := by
                    injection h with h3
                    rw [h3]
                  have hlmax : l.maxHist = nm.map (fun v => [v]) := by
                    injection h with h3
                    rw [h3]
                  have hl2min : l2.minHist
                      = List.zipWith (fun hist nv => hist ++ [nv]) l.minHist nmin2 := by
                    injection h2 with h3
                    rw [h3]
                  have hl2max : l2.maxHist
                      = List.zipWith (fun hist nv => hist ++ [nv]) l.maxHist nm2 := by
                    injection h2 with h3
                    rw [h3]
                  have hbase_min : ∀ hh ∈ l.minHist, hh.length = 1 := by
                    rw [hlmin]
                    intro hh hmem
                    simp only [List.mem_map] at hmem
                    obtain ⟨v, -, rfl⟩ := hmem
                    rfl
                  have hbase_max : ∀ hh ∈ l.maxHist, hh.length = 1 := by
                    rw [hlmax]
                    intro hh hmem
                    simp only [List.mem_map] at hmem
                    obtain ⟨v, -, rfl⟩ := hmem
                    rfl
                  constructor
                  · intro hh hmem
                    rw [show (FinalOut.mk r.state l2.minHist l2.maxHist r.gap
                        r.maxObjVal r.minObjVal).minHist = l2.minHist from rfl] at hmem
                    rw [hl2min] at hmem
                    exact length_mem_zipWith_append l.minHist nmin2 1 hbase_min hh hmem
                  · intro hh hmem
                    rw [show (FinalOut.mk r.state l2.minHist l2.maxHist r.gap
                        r.maxObjVal r.minObjVal).maxHist = l2.maxHist from rfl] at hmem
                    rw [hl2max] at hmem
                    exact length_mem_zipWith_append l.maxHist nm2 1 hbase_max hh hmem

/-- A stationary solver: every maximizer solve returns [1], every
minimizer solve returns [2], both with optimum 0. -/
def solStat : Solver := fun _ p =>
  match p.sense with
  | Sense.maxi => some ([[1]], 0)
  | Sense.mini => some ([[2]], 0)

/-- Witness for C2: under the stationary solver the solve with budget 3
stops as converged at k = 2, each history carrying exactly three
(identical) iterates. -/
theorem solveDR_stops_by_k2_when_stationary_witness :
    solveDR sppW solStat 3 1 0 stW
      = DRResult.ok ⟨⟨[some [2]], [some [1]]⟩,
          [[[2], [2], [2]]], [[[1], [1], [1]]], |(0 : ℚ) - 0|, 0, 0⟩ := by
  have H := solveDR_stops_by_k2_when_stationary sppW solStat 3 1 0 stW
    [[1]] [[2]] 0 0 [Constr.mk 1 [1]] [Constr.mk 0 [0]] (by decide) (by decide)
    (fun _ _ _ => rfl) (fun _ _ _ => rfl) (by decide) (by omega) (le_refl 0)
  exact H.1

/-- A problem like sppW plus a declared minimizer variable 2 that appears
in neither the objective nor any constraint, so it is absent from
self.variables and the plot rows are narrower than the aggregate. -/
def sppW2 : SPP :=
  ⟨Expr.node "sub" [Expr.var 0 [] [], Expr.var 1 [] []],
   [Constr.mk 0 [0], Constr.mk 1 [1]],
   [⟨0, [], []⟩, ⟨2, [], []⟩], [⟨1, [], []⟩]⟩

/-- A stationary solver for sppW2: maximizer solves return one value,
minimizer solves return one value per minimizer variable. -/
def solStat2 : Solver := fun _ p =>
  match p.sense with
  | Sense.maxi => some ([[1]], 0)
  | Sense.mini => some ([[2], [0]], 0)

/-- Initial variable values for sppW2. -/
def stW2 : DRState := ⟨[some [0], some [0]], [some [0]]⟩

/-- Counterexample to C2 as frozen: under a stationary solver, a declared
but unreferenced minimizer variable makes the k = 1 aggregate (width 3)
wider than the plot rows, which problem.py 233 sizes by the referenced
variables only (width 2), so `plot_array[0] = current_array` (line 279)
raises ValueError and the solve aborts at k = 1 instead of stopping as
converged at k = 2. -/
theorem solveDR_width_mismatch_counterexample :
    solveDR sppW2 solStat2 3 1 0 stW2 = DRResult.modelFail := by rfl

end DSPP
